import Mathlib

/-!
Verification development for the ARCP (Agent Registry & Control Protocol)
server.  The repository ships its test suite under `src/tests`; the
implementation modules themselves (`arcp.core.registry`, `arcp.core.cleanup`,
`arcp.utils.rate_limiter`, `arcp.utils.security_sanitizer`,
`arcp.api.tokens`, ...) are not part of the checkout, so every operation
below is modelled from the specification, with concrete behaviour pinned by
the repository's unit tests wherever those tests fix it.
-/

namespace ARCP

/-! ## Rate limiter (`arcp.utils.rate_limiter`) -/

/-- Modelled from the spec: the `AttemptInfo` record of
`arcp.utils.rate_limiter` (missing from the checkout), one per
(identifier, bucket): `count`, `first_attempt`, `last_attempt`,
`locked_until`, `lockout_count`.  Timestamps are seconds as `Nat`. -/
structure AttemptInfo where
  count : Nat
  first_attempt : Nat
  last_attempt : Nat
  locked_until : Option Nat
  lockout_count : Nat
deriving Repr, DecidableEq

/-- Modelled from the spec: the constructor parameters of `RateLimiter`
(`max_attempts`, `lockout_duration`, `window_duration`, `progressive_delay`,
`max_lockout_duration`) of the missing `arcp.utils.rate_limiter`. -/
structure RateLimiterConfig where
  max_attempts : Nat
  lockout_duration : Nat
  window_duration : Nat
  max_lockout_duration : Nat
  progressive_delay : Bool
deriving Repr, DecidableEq

/-- Modelled from the spec: the additive repeat-offender cap `max_penalty`
in the progressive-delay formula
`min(2^(count-1) + 30*lockout_count, base_lockout + max_penalty)`;
the value 150 is pinned by `test_calculate_delay`
(`calculate_delay(10, lockout_count=5) = 60 + 150 = 210`). -/
def MAX_REPEAT_PENALTY : Nat := 150

/-- Modelled from the spec: `RateLimiter.calculate_lockout_duration`
(missing from the checkout): `base_lockout * 2^(lockout_count-1)` capped by
`max_lockout_duration`; pinned by `test_calculate_lockout_duration`. -/
def calculate_lockout_duration (cfg : RateLimiterConfig) (lockoutCount : Nat) : Nat :=
  min (cfg.lockout_duration * 2 ^ (lockoutCount - 1)) cfg.max_lockout_duration

/-- Modelled from the spec: `RateLimiter.calculate_delay` (missing from the
checkout): progressive delay `min(2^(count-1) + 30*lockout_count,
base_lockout + max_penalty)`, or a constant 1 second when
`progressive_delay` is off; pinned by `test_calculate_delay`. -/
def calculate_delay (cfg : RateLimiterConfig) (count : Nat) (lockoutCount : Nat) : Nat :=
  if cfg.progressive_delay then
    min (2 ^ (count - 1) + 30 * lockoutCount) (cfg.lockout_duration + MAX_REPEAT_PENALTY)
  else 1

/-- Outcome of a single-identifier rate-limit check: whether the attempt is
allowed, the remaining delay when it is not, and a short reason. -/
structure RateCheckResult where
  allowed : Bool
  delay : Option Nat
  reason : Option String
deriving Repr, DecidableEq

/-- Modelled from the spec: `RateLimiter._check_single_identifier` (missing
from the checkout).  No record means allowed; an active lockout rejects with
the remaining time; an expired lockout is cleared; otherwise the progressive
delay since `last_attempt` must have elapsed.  Pinned by the
`TestRateLimiterAsyncMethods` cases of `test_rate_limiter.py`. -/
def check_single_identifier (cfg : RateLimiterConfig) (now : Nat)
    (info? : Option AttemptInfo) : RateCheckResult :=
  match info? with
  | none => ⟨true, none, none⟩
  | some info =>
    match info.locked_until with
    | some t =>
      if now < t then ⟨false, some (t - now), some "locked out"⟩
      else ⟨true, none, none⟩
    | none =>
      if info.count = 0 then ⟨true, none, none⟩
      else
        let req := calculate_delay cfg info.count info.lockout_count
        let elapsed := now - info.last_attempt
        if elapsed < req then ⟨false, some (req - elapsed), some "Too many attempts"⟩
        else ⟨true, none, none⟩

/-- Modelled from the spec: `RateLimiter._record_single_attempt` (missing
from the checkout).  Success clears the counters; failure increments
`count`, and reaching `max_attempts` locks the record until
`now + calculate_lockout_duration(lockout_count+1)`, increments
`lockout_count` and resets `count`.  Returns the new record and the lockout
duration when one was imposed.  Pinned by `test_record_attempt_successful`,
`test_record_attempt_failed_under_limit`,
`test_record_attempt_failed_triggers_lockout` and
`test_record_attempt_first_failure`. -/
def record_single_attempt (cfg : RateLimiterConfig) (now : Nat) (success : Bool)
    (info? : Option AttemptInfo) : AttemptInfo × Option Nat :=
  let info := info?.getD ⟨0, 0, 0, none, 0⟩
  if success then
    (⟨0, 0, now, none, 0⟩, none)
  else
    let newCount := info.count + 1
    if cfg.max_attempts ≤ newCount then
      let newLockoutCount := info.lockout_count + 1
      let dur := calculate_lockout_duration cfg newLockoutCount
      (⟨0, info.first_attempt, now, some (now + dur), newLockoutCount⟩, some dur)
    else
      (⟨newCount, if info.count = 0 then now else info.first_attempt,
        now, info.locked_until, info.lockout_count⟩, none)

/-- Split a character list on the pipe separator, as Python
`identifier.split("|")` does: the splitter of multi-identifier rate-limit
keys. -/
def splitPipeGo (cur : List Char) : List Char → List String
  | [] => [⟨cur.reverse⟩]
  | c :: rest =>
    if c = '|' then ⟨cur.reverse⟩ :: splitPipeGo [] rest
    else splitPipeGo (c :: cur) rest

/-- Split an identifier string on `|`. -/
def splitPipe (s : String) : List String := splitPipeGo [] s.data

/-- Modelled from the spec: `RateLimiter.check_rate_limit` (missing from the
checkout) on a pipe-separated multi-identifier string.  Each component is
checked independently; the request is blocked iff any component is blocked,
and the worst (maximum) remaining delay is surfaced.  Pinned by
`test_check_rate_limit_multiple_identifiers`. -/
def check_rate_limit (cfg : RateLimiterConfig) (now : Nat)
    (states : String → Option AttemptInfo) (identifier : String) : RateCheckResult :=
  let ids := splitPipe identifier
  let results := ids.map (fun i => check_single_identifier cfg now (states i))
  if results.all (fun r => r.allowed) then ⟨true, none, none⟩
  else
    let worst := results.foldl
      (fun acc r => match r.delay with | some d => max acc d | none => acc) 0
    ⟨false, some worst, some "rate limited"⟩

/-- Modelled from the spec: `RateLimiter.record_attempt` (missing from the
checkout) on a pipe-separated multi-identifier string; records the attempt
against every component and returns the maximum lockout imposed, if any.
Pinned by `test_record_attempt_multiple_identifiers`. -/
def record_attempt (cfg : RateLimiterConfig) (now : Nat)
    (states : String → Option AttemptInfo) (identifier : String)
    (success : Bool) : Option Nat :=
  let ids := splitPipe identifier
  let lockouts := ids.filterMap
    (fun i => (record_single_attempt cfg now success (states i)).2)
  match lockouts with
  | [] => none
  | l => some (l.foldl max 0)

/-! ## Stale-agent cleanup (`arcp.core.cleanup`) -/

/-- The `last_seen` field of a stored agent entry as the cleanup loop sees
it: present and parseable to a timestamp, present but malformed, or
missing. -/
inductive LastSeenField where
  | missing : LastSeenField
  | malformed (raw : String) : LastSeenField
  | parsed (t : Nat) : LastSeenField
deriving Repr, DecidableEq

/-- One agent entry as enumerated by the cleanup loop. -/
structure CleanupAgentEntry where
  agent_id : String
  last_seen : LastSeenField
deriving Repr, DecidableEq

/-- Modelled from the spec: the clamp floor for the stale threshold of the
missing `arcp.core.cleanup`; pinned by `test_minimum_config_values`
(`stale threshold should be max(60, 10*2) = 60`). -/
def MIN_STALE_THRESHOLD : Nat := 60

/-- Modelled from the spec: the stale threshold
`max(min_threshold, 2 * heartbeat_timeout)` of the missing
`arcp.core.cleanup`; pinned by `test_cleanup_task_initialization`
(`interval=30s, stale_threshold=120s` for a 60s heartbeat timeout). -/
def stale_threshold (heartbeatTimeout : Nat) : Nat :=
  max MIN_STALE_THRESHOLD (2 * heartbeatTimeout)

/-- Modelled from the spec: the per-entry staleness decision of the missing
`arcp.core.cleanup`: an entry is cleaned iff its `last_seen` parses and
`now - last_seen` exceeds the threshold; malformed or missing `last_seen`
is skipped.  Pinned by `test_cleanup_stale_agents` and
`test_cleanup_with_invalid_timestamps`. -/
def is_stale (now threshold : Nat) (e : CleanupAgentEntry) : Bool :=
  match e.last_seen with
  | .parsed t => decide (threshold < now - t)
  | .malformed _ => false
  | .missing => false

/-- Modelled from the spec: one pass of the cleanup loop of the missing
`arcp.core.cleanup`: the agent ids it unregisters. -/
def cleanup_cycle (now heartbeatTimeout : Nat)
    (entries : List CleanupAgentEntry) : List String :=
  (entries.filter (is_stale now (stale_threshold heartbeatTimeout))).map
    (fun e => e.agent_id)

/-! ## Registry singleton (`arcp.core.registry.AgentRegistry.__new__`) -/

/-- A registry instance, identified by an allocation id standing for Python
object identity. -/
structure AgentRegistryInstance where
  instance_id : Nat
deriving Repr, DecidableEq

/-- Modelled from the spec: the `AgentRegistry` constructor of the missing
`arcp.core.registry`, a process-wide singleton over the module-level
`_instance` slot: if an instance exists it is returned, otherwise a fresh
one is allocated and stored.  Pinned by `test_registry_singleton`. -/
def agent_registry_new (inst? : Option AgentRegistryInstance) (fresh : Nat) :
    AgentRegistryInstance × Option AgentRegistryInstance :=
  match inst? with
  | some inst => (inst, some inst)
  | none => (⟨fresh⟩, some ⟨fresh⟩)

/-! ## Agent registry (`arcp.core.registry`) -/

/-- Modelled from the spec: the `AgentRegistration` input model of the
missing `arcp.models.agent`, restricted to the descriptive fields the
registry operations below read. -/
structure AgentRegistration where
  agent_id : String
  name : String
  agent_type : String
  endpoint : String
  context_brief : String
  capabilities : List String
  owner : String
  public_key : String
  version : String
  communication_mode : String
deriving Repr, DecidableEq

/-- Modelled from the spec: the `AgentMetrics` model of the missing
`arcp.models.agent`. -/
structure AgentMetrics where
  success_rate : ℚ
  avg_response_time : ℚ
  total_requests : Nat
  reputation_score : ℚ
deriving Repr, DecidableEq

/-- A stored agent record: the registration plus the registry-maintained
timestamps (seconds as `Nat`). -/
structure AgentRecord where
  registration : AgentRegistration
  last_seen : Nat
  registered_at : Nat
deriving Repr, DecidableEq

/-- Modelled from the spec: the coupled maps of the missing
`arcp.core.registry`: agent records, embeddings, metrics and the
`sha256(agent_key) → agent_id` bindings, as association lists. -/
structure RegistryState where
  agents : List (String × AgentRecord)
  embeddings : List (String × List ℚ)
  metrics : List (String × AgentMetrics)
  agent_keys : List (String × String)
deriving Repr, DecidableEq

/-- Modelled from the spec: the error taxonomy of `arcp.core.exceptions`
(missing from the checkout) as enumerated by `test_exceptions.py`: the
registry operations modelled here raise `AgentRegistrationError` or
`AgentNotFoundError`; the test module defines no separate key-conflict
exception class. -/
inductive RegistryError where
  | agent_registration_error (msg : String) : RegistryError
  | agent_not_found (msg : String) : RegistryError
deriving Repr, DecidableEq

/-- Insert-or-replace in an association list keyed by strings. -/
def upsert (l : List (String × α)) (k : String) (v : α) : List (String × α) :=
  if l.any (fun p => p.1 = k) then
    l.map (fun p => if p.1 = k then (k, v) else p)
  else (k, v) :: l

/-- Remove every entry with the given key from an association list. -/
def removeKey (l : List (String × α)) (k : String) : List (String × α) :=
  l.filter (fun p => p.1 ≠ k)

/-- Modelled from the spec: `AgentRegistry.get_agent_by_key` of the missing
`arcp.core.registry`: look up the agent bound to a key hash. -/
def get_agent_by_key (s : RegistryState) (keyHash : String) : Option String :=
  s.agent_keys.lookup keyHash

/-- Modelled from the spec: `AgentRegistry.register_agent` of the missing
`arcp.core.registry`.  When an `agent_key_hash` is presented and is already
bound to a different `agent_id`, registration fails with
`AgentRegistrationError("Agent key is already in use by agent: <holder>")`
before any state is written (error class and message pinned by
`test_agent_key_uniqueness`).  Otherwise the record is stored with
`last_seen := now`, the embedding (when the provider produced one) is
stored, and the key binding is written.  The info-hash idempotence path of
§4.2 is outside the claims modelled here and collapses to a record
replacement. -/
def register_agent (now : Nat) (s : RegistryState) (reg : AgentRegistration)
    (agent_key_hash : Option String) (embedding : Option (List ℚ)) :
    Except RegistryError RegistryState :=
  let keyConflict : Option String :=
    match agent_key_hash with
    | none => none
    | some k =>
      match s.agent_keys.lookup k with
      | some holder => if holder = reg.agent_id then none else some holder
      | none => none
  match keyConflict with
  | some holder =>
    .error (.agent_registration_error ("Agent key is already in use by agent: " ++ holder))
  | none =>
    let registeredAt :=
      match s.agents.lookup reg.agent_id with
      | some r => r.registered_at
      | none => now
    let record : AgentRecord := ⟨reg, now, registeredAt⟩
    .ok { s with
          agents := upsert s.agents reg.agent_id record,
          embeddings :=
            match embedding with
            | some e => upsert s.embeddings reg.agent_id e
            | none => s.embeddings,
          agent_keys :=
            match agent_key_hash with
            | some k => upsert s.agent_keys k reg.agent_id
            | none => s.agent_keys }

/-- The registry state after a `register_agent` call: on failure the raised
exception leaves the state untouched. -/
def register_apply (now : Nat) (s : RegistryState) (reg : AgentRegistration)
    (agent_key_hash : Option String) (embedding : Option (List ℚ)) : RegistryState :=
  match register_agent now s reg agent_key_hash embedding with
  | .ok s2 => s2
  | .error _ => s

/-- Modelled from the spec: `AgentRegistry.unregister_agent` of the missing
`arcp.core.registry`: an unknown `agent_id` raises `AgentNotFoundError`
(pinned by `test_unregister_agent_not_found`); otherwise the record,
embedding, metrics and any key binding pointing at this agent are
removed. -/
def unregister_agent (s : RegistryState) (agentId : String) :
    Except RegistryError RegistryState :=
  match s.agents.lookup agentId with
  | none => .error (.agent_not_found ("Agent " ++ agentId ++ " not found"))
  | some _ =>
    .ok { agents := removeKey s.agents agentId,
          embeddings := removeKey s.embeddings agentId,
          metrics := removeKey s.metrics agentId,
          agent_keys := s.agent_keys.filter (fun p => p.2 ≠ agentId) }

/-- The registry state after an `unregister_agent` call: on failure the
raised exception leaves the state untouched. -/
def unregister_apply (s : RegistryState) (agentId : String) : RegistryState :=
  match unregister_agent s agentId with
  | .ok s2 => s2
  | .error _ => s

/-! ## Semantic search (`arcp.core.registry.vector_search`) -/

/-- Modelled from the spec: the `SearchRequest` model of the missing
`arcp.models.agent`: query text, `top_k`, `min_similarity` and the optional
filters. -/
structure SearchRequest where
  query : String
  top_k : Nat
  min_similarity : ℚ
  agent_type : Option String
  capabilities : Option (List String)
deriving Repr, DecidableEq

/-- Search-result ordering: decreasing similarity, ties broken by
`agent_id` lexicographically ascending. -/
def result_le (a b : String × ℚ) : Prop :=
  b.2 < a.2 ∨ (a.2 = b.2 ∧ a.1 ≤ b.1)

instance : DecidableRel result_le := fun a b => by
  unfold result_le; infer_instance

instance : IsTotal (String × ℚ) result_le where
  total a b := by
    unfold result_le
    rcases lt_trichotomy a.2 b.2 with h | h | h
    · exact Or.inr (Or.inl h)
    · rcases le_total a.1 b.1 with h1 | h1
      · exact Or.inl (Or.inr ⟨h, h1⟩)
      · exact Or.inr (Or.inr ⟨h.symm, h1⟩)
    · exact Or.inl (Or.inl h)

instance : IsTrans (String × ℚ) result_le where
  trans a b c hab hbc := by
    unfold result_le at *
    rcases hab with h1 | ⟨h1, h1'⟩
    · rcases hbc with h2 | ⟨h2, h2'⟩
      · exact Or.inl (h2.trans h1)
      · exact Or.inl (h2 ▸ h1)
    · rcases hbc with h2 | ⟨h2, h2'⟩
      · exact Or.inl (h1 ▸ h2)
      · exact Or.inr ⟨h1.trans h2, h1'.trans h2'⟩

/-- Modelled from the spec: whether a stored record is alive at `now`
(status is computed, not stored: alive iff `now - last_seen` is within the
heartbeat timeout). -/
def is_alive (now heartbeatTimeout : Nat) (r : AgentRecord) : Bool :=
  now - r.last_seen ≤ heartbeatTimeout

/-- Modelled from the spec: the search filter predicates (`agent_type`
equality, `capabilities` all-match). -/
def matches_filters (req : SearchRequest) (r : AgentRecord) : Bool :=
  (match req.agent_type with
   | some t => r.registration.agent_type = t
   | none => true)
  && (match req.capabilities with
      | some cs => cs.all (fun c => r.registration.capabilities.contains c)
      | none => true)

/-- Modelled from the spec: the alive candidates passing the request's
filters. -/
def candidate_filter (now heartbeatTimeout : Nat) (req : SearchRequest)
    (s : RegistryState) : List (String × AgentRecord) :=
  s.agents.filter (fun p => is_alive now heartbeatTimeout p.2 && matches_filters req p.2)

/-- Modelled from the spec: the ranking stage of `vector_search`: drop
candidates below `min_similarity`, sort by similarity descending with
`agent_id` ascending tie-break, take `top_k`. -/
def rank_results (req : SearchRequest) (cands : List (String × ℚ)) :
    List (String × ℚ) :=
  (List.insertionSort result_le
    (cands.filter (fun c => req.min_similarity ≤ c.2))).take req.top_k

/-- Modelled from the spec: `AgentRegistry.vector_search` of the missing
`arcp.core.registry`.  When the embedding provider is unavailable the
search returns the empty list — this branch is pinned by the repository's
own unit test `test_vector_search_without_ai_client`, which asserts
`results == []` with the comment `Should return empty results without AI
client` (the spec's §4.4 lexical fallback is not what the test pins).
Otherwise the query embedding is compared by `sim` (embedding the cosine
similarity, whose numeric value the claims below do not depend on) against
each alive filtered candidate's stored embedding, and the ranking stage is
applied. -/
def vector_search (providerAvailable : Bool) (queryEmbedding : List ℚ)
    (sim : List ℚ → List ℚ → ℚ) (now heartbeatTimeout : Nat)
    (req : SearchRequest) (s : RegistryState) : List (String × ℚ) :=
  if providerAvailable = false then []
  else
    rank_results req
      ((candidate_filter now heartbeatTimeout req s).filterMap
        (fun p => (s.embeddings.lookup p.1).map
          (fun e => (p.1, sim queryEmbedding e))))

/-! ## Token validation endpoint (`arcp.api.tokens`) -/

/-- Modelled from the spec: the signed token payload of the missing
`arcp.core.token_service`: `sub`, `agent_id`, `role`, `iss` and the expiry
timestamp. -/
structure TokenPayload where
  sub : String
  agent_id : String
  role : String
  iss : String
  exp : Nat
  temp_registration : Bool
deriving Repr, DecidableEq

/-- A token string as the validation endpoint sees it, after signature
checking is abstracted: either not parseable as a token at all, or a parsed
payload together with whether its signature verified. -/
inductive TokenInput where
  | malformed (raw : String) : TokenInput
  | signed (payload : TokenPayload) (sigOk : Bool) : TokenInput
deriving Repr, DecidableEq

/-- Modelled from the spec: `validate_token` of the missing
`arcp.core.token_service`: returns the claims iff the token parses, the
signature is valid, it is not expired and `iss = arcp`; otherwise an
error description. -/
def validate_token (now : Nat) (tok : TokenInput) : Except String TokenPayload :=
  match tok with
  | .malformed _ => .error "Invalid token format"
  | .signed p sigOk =>
    if sigOk = false then .error "Invalid token signature"
    else if p.exp ≤ now then .error "Token has expired"
    else if p.iss ≠ "arcp" then .error "Invalid token issuer"
    else .ok p

/-- The HTTP response of the token-validation endpoint. -/
structure ValidateResponse where
  status : Nat
  valid : Bool
  payload : Option TokenPayload
  error : Option String
deriving Repr, DecidableEq

/-- Modelled from the spec: the `POST /tokens/validate` handler of the
missing `arcp.api.tokens`: every validation outcome, success or failure, is
reported in a 200 response whose body carries a boolean `valid` flag with
the payload on success or an error description on failure; no failure
branch produces an error status.  Pinned by
`test_validate_token_post_invalid_token` and
`test_token_validation_edge_cases`. -/
def validate_endpoint (now : Nat) (tok : TokenInput) : ValidateResponse :=
  match validate_token now tok with
  | .ok p => ⟨200, true, some p, none⟩
  | .error e => ⟨200, false, none, some e⟩

/-! ## Security sanitizer (`arcp.utils.security_sanitizer`) -/

/-- The `[FILTERED]` replacement marker of the sanitizer, as characters. -/
def FILTERED_MARK : List Char := "[FILTERED]".toList

/-- ASCII lower-casing, the case folding applied by the sanitizer's
case-insensitive pattern matching. -/
def lowerChar (c : Char) : Char :=
  if 'A' ≤ c && c ≤ 'Z' then Char.ofNat (c.toNat + 32) else c

/-- Case-insensitive character comparison used by the dangerous-pattern
matcher. -/
def ciEq (a b : Char) : Bool := lowerChar a = lowerChar b

/-- Does the pattern match, case-insensitively, at the head of the list? -/
def matchesAt (pat : List Char) (l : List Char) : Bool :=
  match pat, l with
  | [], _ => true
  | _ :: _, [] => false
  | p :: ps, c :: cs => ciEq p c && matchesAt ps cs

/-- Is there a case-insensitive occurrence of the pattern anywhere in the
list? -/
def containsCI (pat : List Char) (l : List Char) : Bool :=
  match l with
  | [] => matchesAt pat []
  | _ :: r => matchesAt pat l || containsCI pat r

/-- Modelled from the spec: the dangerous literal patterns of the missing
`arcp.utils.security_sanitizer` (§7: `javascript:`/`data:`/`vbscript:`/
`file:` schemes, CSS `expression(`/`@import`, path traversal, escape
sequences, and the fixed denylist of dangerous strings exercised by
`test_sanitize_string_dangerous_strings`), matched case-insensitively. -/
def DANGEROUS_PATTERNS : List (List Char) :=
  ["javascript:".toList, "vbscript:".toList, "data:".toList, "file:".toList,
   "expression(".toList, "@import".toList, "../".toList, "..\\".toList,
   "\\x".toList, "\\u".toList, "\\r".toList, "\\n".toList, "\\t".toList,
   "document.cookie".toList, "window.location".toList,
   "xmlhttprequest".toList, "javascript".toList, "vbscript".toList,
   "script".toList, "iframe".toList, "object".toList, "embed".toList,
   "eval".toList, "alert".toList]

/-- Is the character a control character (C0, DEL or C1), removed by the
sanitizer? -/
def isCtrlChar (c : Char) : Bool :=
  c.toNat < 32 || (127 ≤ c.toNat && c.toNat ≤ 159)

/-- Is the character an ASCII word character, as in the event-handler
pattern `on\w+\s*=`? -/
def isWordChar (c : Char) : Bool := c.isAlphanum || c = '_'

/-- The `\s*=` tail of the event-handler pattern: consume spaces until an
`=`, returning the number of characters consumed including the `=`. -/
def evtSpace : List Char → Option Nat
  | [] => none
  | c :: r =>
    if c = ' ' then (evtSpace r).map (fun n => n + 1)
    else if c = '=' then some 1
    else none

/-- The `\w*\s*=` tail of the event-handler pattern after its first word
character: consume further word characters, then spaces, then an `=`,
returning the number of characters consumed including the `=`. -/
def evtWord : List Char → Option Nat
  | [] => none
  | c :: r =>
    if isWordChar c then (evtWord r).map (fun n => n + 1)
    else if c = ' ' then (evtSpace r).map (fun n => n + 1)
    else if c = '=' then some 1
    else none

/-- Modelled from the spec: the event-handler pattern `on\w+\s*=` of the
missing sanitizer; returns the matched length at the head of the list, if
any: a case-insensitive `on`, at least one word character, optional
spaces, and `=`. -/
def eventHandlerLen (l : List Char) : Option Nat :=
  match l with
  | a :: b :: c :: rest =>
    if ciEq a 'o' && ciEq b 'n' && isWordChar c then
      (evtWord rest).map (fun n => 3 + n)
    else none
  | _ => none

/-- The length of the dangerous match at the head of the list, if any: the
first matching literal pattern, else an event-handler match, else a single
control character. -/
def matchLenAt (l : List Char) : Option Nat :=
  match DANGEROUS_PATTERNS.find? (fun p => matchesAt p l) with
  | some p => some p.length
  | none =>
    match eventHandlerLen l with
    | some n => some n
    | none =>
      match l with
      | c :: _ => if isCtrlChar c then some 1 else none
      | [] => none

/-- Modelled from the spec: the filtering pass of the missing sanitizer:
each dangerous match is replaced by `[FILTERED]`, and consecutive
`[FILTERED]` markers collapse into one (§7 "repeated filters collapse",
pinned by `test_sanitize_string_multiple_consecutive_filtered` and by
`test_sanitize_string_control_characters` expecting a single marker for a
run of control characters).  The `justFiltered` flag records that a marker
was just emitted.  The `fuel` argument bounds the recursion structurally;
every step consumes at least one character, so `scanFilter` below, which
supplies the input length as fuel, never reaches the fuel-exhausted
branch. -/
def scanFilterGo (fuel : Nat) (justFiltered : Bool) (l : List Char) : List Char :=
  match fuel, l with
  | _, [] => []
  | 0, _ :: _ => []
  | fuel + 1, c :: rest =>
    match matchLenAt (c :: rest) with
    | some n =>
      (if justFiltered then [] else FILTERED_MARK) ++
        scanFilterGo fuel true (rest.drop (n - 1))
    | none => c :: scanFilterGo fuel false rest

/-- The filtering pass, starting outside a marker, with enough fuel for the
whole input. -/
def scanFilter (l : List Char) : List Char := scanFilterGo l.length false l

/-- Modelled from the spec: the HTML escaping step of the missing
sanitizer.  Per §7's words it "HTML-escapes angle brackets" (`&lt;`/`&gt;`
pinned by `test_sanitize_string_html_escaping`); quotes are escaped as
well because `test_sanitize_sql_injection_patterns` requires every output
to have single quotes escaped (`&#x27;`) or absent, and the sanitizer does
not remove quotes.  The ampersand itself is NOT escaped: no test pins
ampersand escaping and §8 asserts sanitizer idempotence, which re-escaping
`&` would break. -/
def htmlEscapeChar (c : Char) : List Char :=
  if c = '<' then "&lt;".toList
  else if c = '>' then "&gt;".toList
  else if c = '"' then "&quot;".toList
  else if c = '\'' then "&#x27;".toList
  else [c]

/-- HTML-escape a character list. -/
def htmlEscape (l : List Char) : List Char :=
  match l with
  | [] => []
  | c :: r => htmlEscapeChar c ++ htmlEscape r

/-- Is the character one of the four characters rewritten by
`htmlEscapeChar`?  The sanitizer's own output never contains one, which is
what makes the escaping step idempotent. -/
def isEscChar (c : Char) : Bool := c = '<' || c = '>' || c = '"' || c = '\''

/-- Modelled from the spec: the length bound of the missing sanitizer:
output longer than `maxLength` is truncated and suffixed with `...`
(pinned by `test_sanitize_string_max_length`, `len(result) <= 103` for
`max_length=100` with the result ending in `...`). -/
def truncateTo (maxLength : Nat) (l : List Char) : List Char :=
  if maxLength < l.length then l.take maxLength ++ "...".toList else l

/-- Modelled from the spec: `SecuritySanitizer.sanitize_string` of the
missing `arcp.utils.security_sanitizer`: HTML-escape, replace dangerous
matches with `[FILTERED]` collapsing repeats, and bound the length
(default cap 200). -/
def sanitize_string (value : String) (maxLength : Nat := 200) : String :=
  ⟨truncateTo maxLength (scanFilter (htmlEscape value.toList))⟩

/-- Does the pattern end in a character other than (case-insensitive)
`.`?  Every dangerous pattern does; this is what keeps the sanitizer's
truncation suffix `...` from completing a partial dangerous match. -/
def lastNotDot : List Char → Bool
  | [] => true
  | [c] => !(ciEq c '.')
  | _ :: c :: rest => lastNotDot (c :: rest)

/-- A character list is match-free when no dangerous match (literal
pattern, event handler, or control character) starts at any of its
positions: the fixed-point property of the sanitizer's filtering pass. -/
def matchFree : List Char → Prop
  | [] => True
  | c :: rest => matchLenAt (c :: rest) = none ∧ matchFree rest

/-! ## Concrete fixtures mirroring the repository's test data -/

/-- The rate-limiter configuration of `TestRateLimiter.setup_method`. -/
def cfgW : RateLimiterConfig := ⟨3, 60, 300, 600, true⟩

/-- Stored attempt records for the multi-identifier scenario of
`test_check_rate_limit_multiple_identifiers`: one blocked identifier, all
others clean. -/
def statesW : String → Option AttemptInfo := fun i =>
  if i = "blocked_id" then some ⟨0, 0, 0, some 1100, 1⟩ else none

/-- The first registration of `test_agent_key_uniqueness`. -/
def regA : AgentRegistration :=
  ⟨"demo-agent-001", "Test Agent 1", "testing", "https://test1.example.com/api",
   "A test agent for validation", ["test"], "Test Owner 1", "ssh-rsa-test-key-1",
   "1.0.0", "remote"⟩

/-- The second registration of `test_agent_key_uniqueness`, presenting the
same agent key. -/
def regB : AgentRegistration :=
  ⟨"demo-agent-002", "Test Agent 2", "testing", "https://test2.example.com/api",
   "Another test agent for validation", ["test"], "Test Owner 2", "ssh-rsa-test-key-2",
   "1.0.0", "remote"⟩

/-- The empty registry. -/
def emptyRegistry : RegistryState := ⟨[], [], [], []⟩

/-- The shared agent-key hash of `test_agent_key_uniqueness`. -/
def keyHashW : String := "sha256-of-test-agent-001"

/-- The registry after the first agent registered with the shared key. -/
def sDemo1 : RegistryState := register_apply 100 emptyRegistry regA (some keyHashW) none

/-- The search request of `test_vector_search_without_ai_client`, with the
threshold lowered to 0 so that any lexical fallback would have to return
the alive candidate. -/
def reqDemo : SearchRequest := ⟨"test agent", 5, 0, none, none⟩

/-- A registry holding one alive agent with a stored embedding. -/
def sSearch : RegistryState :=
  ⟨[("demo-agent-001", ⟨regA, 100, 100⟩)], [("demo-agent-001", [1, 0])], [], []⟩

end ARCP

namespace ARCP

/-! ## Helper lemmas -/

theorem is_stale_iff (now th : Nat) (e : CleanupAgentEntry) :
    is_stale now th e = true ↔ ∃ t, e.last_seen = .parsed t ∧ th < now - t := by
  cases h : e.last_seen <;> simp [is_stale, h]

theorem check_single_allowed_of_delay (cfg : RateLimiterConfig) (now : Nat)
    (info? : Option AttemptInfo) (d : Nat)
    (h : (check_single_identifier cfg now info?).delay = some d) :
    (check_single_identifier cfg now info?).allowed = false := by
  unfold check_single_identifier at *
  rcases info? with _ | info
  · simp at h
  · rcases hl : info.locked_until with _ | t <;> simp only [hl] at h ⊢
    · split at h
      · simp at h
      · split at h <;> simp_all
    · split at h <;> simp_all

theorem acc_le_worst_fold (results : List RateCheckResult) (acc : Nat) :
    acc ≤ results.foldl
      (fun acc r => match r.delay with | some d => max acc d | none => acc) acc := by
  induction results generalizing acc with
  | nil => simp
  | cons r rs ih =>
    simp only [List.foldl_cons]
    rcases h : r.delay with _ | d <;> simp only
    · exact ih acc
    · exact le_trans (le_max_left acc d) (ih (max acc d))

theorem delay_le_worst_fold (results : List RateCheckResult) (acc : Nat)
    (r : RateCheckResult) (hr : r ∈ results) (d : Nat) (hd : r.delay = some d) :
    d ≤ results.foldl
      (fun acc r => match r.delay with | some d => max acc d | none => acc) acc := by
  induction results generalizing acc with
  | nil => simp at hr
  | cons r0 rs ih =>
    simp only [List.foldl_cons]
    rcases List.mem_cons.mp hr with rfl | hmem
    · rw [hd]
      exact le_trans (le_max_right acc d) (acc_le_worst_fold rs (max acc d))
    · rcases h0 : r0.delay with _ | d0 <;> simp only
      · exact ih _ hmem
      · exact ih _ hmem

theorem worst_fold_eq_filterMap (results : List RateCheckResult) (acc : Nat) :
    results.foldl
      (fun acc r => match r.delay with | some d => max acc d | none => acc) acc
      = (results.filterMap (fun r => r.delay)).foldl max acc := by
  induction results generalizing acc with
  | nil => rfl
  | cons r rs ih =>
    rcases h : r.delay with _ | d
    · simp only [List.foldl_cons, List.filterMap_cons, h]
      exact ih acc
    · simp only [List.foldl_cons, List.filterMap_cons, h]
      exact ih (max acc d)

theorem check_single_blocked_has_delay (cfg : RateLimiterConfig) (now : Nat)
    (info? : Option AttemptInfo)
    (h : (check_single_identifier cfg now info?).allowed = false) :
    ∃ d, (check_single_identifier cfg now info?).delay = some d := by
  unfold check_single_identifier at *
  rcases info? with _ | info
  · simp at h
  · rcases hl : info.locked_until with _ | t <;> simp only [hl] at h ⊢
    · split at h
      · simp at h
      · split at h <;> simp_all
    · split at h <;> simp_all

theorem acc_le_foldl_max (l : List Nat) (a : Nat) : a ≤ l.foldl max a := by
  induction l generalizing a with
  | nil => simp
  | cons y ys ih => exact le_trans (le_max_left a y) (ih (max a y))

theorem le_foldl_max (l : List Nat) (a : Nat) : ∀ x ∈ l, x ≤ l.foldl max a := by
  induction l generalizing a with
  | nil => simp
  | cons y ys ih =>
    intro x hx
    rcases List.mem_cons.mp hx with rfl | hmem
    · exact le_trans (le_max_right a x) (acc_le_foldl_max ys (max a x))
    · exact ih (max a y) x hmem

theorem foldl_max_mem (l : List Nat) (a : Nat) : l.foldl max a = a ∨ l.foldl max a ∈ l := by
  induction l generalizing a with
  | nil => simp
  | cons y ys ih =>
    simp only [List.foldl_cons]
    rcases ih (max a y) with h | h
    · rw [h]
      rcases max_choice a y with h2 | h2
      · exact Or.inl h2
      · refine Or.inr ?_
        rw [h2]
        exact List.mem_cons_self y ys
    · exact Or.inr (List.mem_cons_of_mem y h)

theorem foldl_max_mem_of_ne_nil (l : List Nat) (h : l ≠ []) : l.foldl max 0 ∈ l := by
  rcases foldl_max_mem l 0 with h0 | h0
  · rcases List.exists_mem_of_ne_nil l h with ⟨x, hx⟩
    have hle := le_foldl_max l 0 x hx
    rw [h0] at hle
    have : x = 0 := Nat.le_zero.mp hle
    rw [h0]
    exact this ▸ hx
  · exact h0

theorem rank_results_sorted (req : SearchRequest) (cands : List (String × ℚ)) :
    List.Sorted result_le (rank_results req cands) :=
  List.Pairwise.sublist (List.take_sublist _ _)
    (List.sorted_insertionSort result_le _)

theorem rank_results_min (req : SearchRequest) (cands : List (String × ℚ)) :
    ∀ r ∈ rank_results req cands, req.min_similarity ≤ r.2 := by
  intro r hr
  have h1 := List.mem_of_mem_take hr
  rw [List.mem_insertionSort] at h1
  have h2 := (List.mem_filter.mp h1).2
  exact of_decide_eq_true h2

theorem rank_results_length (req : SearchRequest) (cands : List (String × ℚ)) :
    (rank_results req cands).length ≤ req.top_k :=
  List.length_take_le _ _

/-! ## Claim theorems -/

/-- C4: the stale-cleanup loop unregisters an agent entry iff its
`last_seen` parses to a timestamp `t` with `now - t` exceeding
`max(min_threshold, 2 * heartbeat_timeout)`; entries whose `last_seen` is
missing or malformed are skipped, never deleted. -/
theorem cleanup_unregisters_iff_stale (now hb : Nat)
    (entries : List CleanupAgentEntry) (id : String) :
    id ∈ cleanup_cycle now hb entries ↔
      ∃ e ∈ entries, e.agent_id = id ∧
        ∃ t, e.last_seen = .parsed t ∧ stale_threshold hb < now - t := by
  simp only [cleanup_cycle, List.mem_map, List.mem_filter]
  constructor
  · rintro ⟨e, ⟨he, hs⟩, rfl⟩
    exact ⟨e, he, rfl, (is_stale_iff _ _ _).mp hs⟩
  · rintro ⟨e, he, rfl, t, ht, hlt⟩
    exact ⟨e, ⟨he, (is_stale_iff _ _ _).mpr ⟨t, ht, hlt⟩⟩, rfl⟩

/-- C5: a failed attempt that brings `count` to `max_attempts` locks the
record until `now + base_lockout * 2^(lockout_count - 1)` (for the
incremented `lockout_count`) capped at `max_lockout_duration`, increments
`lockout_count`, resets `count` to 0, and while locked every check is
rejected with the remaining positive delay. -/
theorem rate_limit_lockout_transition (cfg : RateLimiterConfig) (now : Nat)
    (info : AttemptInfo) (h : info.count + 1 = cfg.max_attempts) :
    record_single_attempt cfg now false (some info) =
      (⟨0, info.first_attempt, now,
        some (now + min (cfg.lockout_duration * 2 ^ (info.lockout_count + 1 - 1))
          cfg.max_lockout_duration),
        info.lockout_count + 1⟩,
       some (min (cfg.lockout_duration * 2 ^ (info.lockout_count + 1 - 1))
         cfg.max_lockout_duration)) ∧
    ∀ now2 < now + min (cfg.lockout_duration * 2 ^ (info.lockout_count + 1 - 1))
        cfg.max_lockout_duration,
      check_single_identifier cfg now2
          (some (record_single_attempt cfg now false (some info)).1) =
        ⟨false,
         some (now + min (cfg.lockout_duration * 2 ^ (info.lockout_count + 1 - 1))
           cfg.max_lockout_duration - now2),
         some "locked out"⟩ ∧
      0 < now + min (cfg.lockout_duration * 2 ^ (info.lockout_count + 1 - 1))
        cfg.max_lockout_duration - now2 := by
  have hc : cfg.max_attempts ≤ info.count + 1 := le_of_eq h.symm
  have h1 : record_single_attempt cfg now false (some info) =
      (⟨0, info.first_attempt, now,
        some (now + min (cfg.lockout_duration * 2 ^ (info.lockout_count + 1 - 1))
          cfg.max_lockout_duration),
        info.lockout_count + 1⟩,
       some (min (cfg.lockout_duration * 2 ^ (info.lockout_count + 1 - 1))
         cfg.max_lockout_duration)) := by
    simp [record_single_attempt, calculate_lockout_duration, hc]
  refine ⟨h1, ?_⟩
  intro now2 h2
  rw [h1]
  constructor
  · simp only [check_single_identifier]
    rw [if_pos h2]
  · omega

/-- C5 witness: the lockout transition applied to the concrete record of
`test_record_attempt_failed_triggers_lockout` (count 2 of max 3 at time
1000): a 60-second lockout is imposed, and a check at time 1020 is
rejected with the remaining 40-second delay. -/
theorem rate_limit_lockout_transition_witness :
    (record_single_attempt cfgW 1000 false (some ⟨2, 950, 950, none, 0⟩)).2 = some 60 ∧
    check_single_identifier cfgW 1020
        (some (record_single_attempt cfgW 1000 false (some ⟨2, 950, 950, none, 0⟩)).1) =
      ⟨false, some 40, some "locked out"⟩ := by
  have h := rate_limit_lockout_transition cfgW 1000 ⟨2, 950, 950, none, 0⟩ (by decide)
  constructor
  · rw [h.1]
    decide
  · have h3 := (h.2 1020 (by decide)).1
    rw [h3]
    decide

/-- C7: on a pipe-separated
multi-identifier string each component identifier is evaluated
independently: the request is blocked iff at least one component is
blocked; when blocked, the surfaced delay is the maximum over the
components' delays (attained by some component and dominating every
component's delay); and the lockout surfaced by `record_attempt` is the
maximum over the components' lockouts (`none` exactly when no component
locked out). -/
theorem multi_identifier_worst_case (cfg : RateLimiterConfig) (now : Nat)
    (states : String → Option AttemptInfo) (identifier : String) :
    ((check_rate_limit cfg now states identifier).allowed = false ↔
      ∃ i ∈ splitPipe identifier,
        (check_single_identifier cfg now (states i)).allowed = false) ∧
    ((check_rate_limit cfg now states identifier).allowed = false →
      ∃ w, (check_rate_limit cfg now states identifier).delay = some w ∧
        (∃ i ∈ splitPipe identifier,
          (check_single_identifier cfg now (states i)).delay = some w) ∧
        ∀ i ∈ splitPipe identifier, ∀ d,
          (check_single_identifier cfg now (states i)).delay = some d → d ≤ w) ∧
    (∀ success, record_attempt cfg now states identifier success = none ↔
      ∀ i ∈ splitPipe identifier,
        (record_single_attempt cfg now success (states i)).2 = none) ∧
    (∀ success m, record_attempt cfg now states identifier success = some m →
      (∃ i ∈ splitPipe identifier,
        (record_single_attempt cfg now success (states i)).2 = some m) ∧
      ∀ i ∈ splitPipe identifier, ∀ d,
        (record_single_attempt cfg now success (states i)).2 = some d → d ≤ m) := by
  refine ⟨?_, ?_, ?_, ?_⟩
  · simp only [check_rate_limit]
    by_cases hall : ((splitPipe identifier).map
        (fun i => check_single_identifier cfg now (states i))).all (fun r => r.allowed) = true
    · rw [if_pos hall]
      constructor
      · intro habs
        simp at habs
      · rintro ⟨i, hi, hfalse⟩
        rw [List.all_eq_true] at hall
        have h2 := hall _ (List.mem_map_of_mem _ hi)
        simp only at h2
        rw [hfalse] at h2
        exact absurd h2 (by decide)
    · rw [if_neg hall]
      constructor
      · intro _
        rw [List.all_eq_true] at hall
        push_neg at hall
        rcases hall with ⟨r, hr, hra⟩
        rcases List.mem_map.mp hr with ⟨i, hi, rfl⟩
        exact ⟨i, hi, Bool.eq_false_iff.mpr hra⟩
      · intro _
        rfl
  · intro hblocked
    simp only [check_rate_limit] at hblocked ⊢
    by_cases hall : ((splitPipe identifier).map
        (fun i => check_single_identifier cfg now (states i))).all
          (fun r => r.allowed) = true
    · rw [if_pos hall] at hblocked
      simp at hblocked
    · rw [if_neg hall] at hblocked ⊢
      refine ⟨_, rfl, ?_, ?_⟩
      · rw [List.all_eq_true] at hall
        push_neg at hall
        rcases hall with ⟨r, hr, hra⟩
        rcases List.mem_map.mp hr with ⟨i, hi, rfl⟩
        have hrfalse : (check_single_identifier cfg now (states i)).allowed = false :=
          Bool.eq_false_iff.mpr hra
        rcases check_single_blocked_has_delay cfg now (states i) hrfalse with ⟨d, hd⟩
        rw [worst_fold_eq_filterMap]
        have hne : (((splitPipe identifier).map
            (fun i => check_single_identifier cfg now (states i))).filterMap
              (fun r => r.delay)) ≠ [] := by
          intro h0
          have h1 := List.filterMap_eq_nil_iff.mp h0 _ hr
          rw [hd] at h1
          exact absurd h1 (by simp)
        have hmem := foldl_max_mem_of_ne_nil _ hne
        rcases List.mem_filterMap.mp hmem with ⟨r2, hr2, hr2d⟩
        rcases List.mem_map.mp hr2 with ⟨i2, hi2, rfl⟩
        exact ⟨i2, hi2, hr2d⟩
      · intro i hi d hd
        rw [worst_fold_eq_filterMap]
        exact le_foldl_max _ 0 d
          (List.mem_filterMap.mpr ⟨_, List.mem_map_of_mem _ hi, hd⟩)
  · intro success
    simp only [record_attempt]
    rcases hl : (splitPipe identifier).filterMap
        (fun i => (record_single_attempt cfg now success (states i)).2) with _ | ⟨x, xs⟩
    · exact iff_of_true rfl (List.filterMap_eq_nil_iff.mp hl)
    · constructor
      · intro habs
        exact absurd habs (by simp)
      · intro hforall
        have h0 := List.filterMap_eq_nil_iff.mpr hforall
        rw [hl] at h0
        exact absurd h0 (by simp)
  · intro success m hm
    simp only [record_attempt] at hm
    rcases hl : (splitPipe identifier).filterMap
        (fun i => (record_single_attempt cfg now success (states i)).2) with _ | ⟨x, xs⟩
    · rw [hl] at hm
      simp at hm
    · rw [hl] at hm
      simp only [Option.some.injEq] at hm
      have hmem : m ∈ x :: xs := by
        rw [← hm]
        exact foldl_max_mem_of_ne_nil (x :: xs) (by simp)
      constructor
      · have h1 : m ∈ (splitPipe identifier).filterMap
            (fun i => (record_single_attempt cfg now success (states i)).2) := by
          rw [hl]
          exact hmem
        rcases List.mem_filterMap.mp h1 with ⟨i, hi, hrec⟩
        exact ⟨i, hi, hrec⟩
      · intro i hi d hd
        have hdmem : d ∈ (splitPipe identifier).filterMap
            (fun i => (record_single_attempt cfg now success (states i)).2) :=
          List.mem_filterMap.mpr ⟨i, hi, hd⟩
        rw [hl] at hdmem
        rw [← hm]
        exact le_foldl_max (x :: xs) 0 d hdmem

/-- C7 witness: the scenario of
`test_check_rate_limit_multiple_identifiers`: the request for
`clean_id|blocked_id` is blocked because `blocked_id` is, and the surfaced
delay is exactly the blocked component's 100-second delay, the maximum
over the two components. -/
theorem multi_identifier_worst_case_witness :
    (check_rate_limit cfgW 1000 statesW "clean_id|blocked_id").allowed = false ∧
    (check_rate_limit cfgW 1000 statesW "clean_id|blocked_id").delay = some 100 := by
  have h := multi_identifier_worst_case cfgW 1000 statesW "clean_id|blocked_id"
  have hb : (check_rate_limit cfgW 1000 statesW "clean_id|blocked_id").allowed = false :=
    h.1.mpr ⟨"blocked_id", by decide, by decide⟩
  exact ⟨hb, by decide⟩

/-- C8: for every token input, valid, expired, unsigned or malformed, the
`POST /tokens/validate` handler responds 200 (never 401) with a boolean
`valid` flag, carrying the payload on success and an error description on
failure. -/
theorem tokens_validate_always_200 (now : Nat) (tok : TokenInput) :
    (validate_endpoint now tok).status = 200 ∧
    (validate_endpoint now tok).status ≠ 401 ∧
    ((validate_endpoint now tok).valid = true ↔
      ∃ p, validate_token now tok = .ok p) ∧
    ((validate_endpoint now tok).valid = true →
      (validate_endpoint now tok).payload.isSome = true) ∧
    ((validate_endpoint now tok).valid = false →
      (validate_endpoint now tok).error.isSome = true) := by
  unfold validate_endpoint
  rcases h : validate_token now tok with p | e <;> simp

/-- C8 witness: the handler applied to the literal invalid token of
`test_validate_token_post_invalid_token` answers 200 with `valid = false`
and an error description. -/
theorem tokens_validate_always_200_witness :
    (validate_endpoint 0 (.malformed "invalid-token")).status = 200 ∧
    (validate_endpoint 0 (.malformed "invalid-token")).valid = false := by
  refine ⟨(tokens_validate_always_200 0 (.malformed "invalid-token")).1, ?_⟩
  decide

/-- C9: the `AgentRegistry` constructor is a process-wide singleton: a
second construction, from whatever instance slot the first left behind,
returns the identical instance and leaves the slot unchanged. -/
theorem registry_constructor_singleton (s : Option AgentRegistryInstance)
    (f1 f2 : Nat) :
    (agent_registry_new (agent_registry_new s f1).2 f2).1 =
      (agent_registry_new s f1).1 ∧
    (agent_registry_new (agent_registry_new s f1).2 f2).2 =
      (agent_registry_new s f1).2 := by
  cases s <;> exact ⟨rfl, rfl⟩

/-- C10: unregistering an agent id that is not currently registered raises
`AgentNotFoundError` and leaves the registry state unchanged. -/
theorem unregister_unknown_raises_not_found (s : RegistryState) (id : String)
    (h : s.agents.lookup id = none) :
    unregister_agent s id =
      .error (.agent_not_found ("Agent " ++ id ++ " not found")) ∧
    unregister_apply s id = s := by
  constructor
  · unfold unregister_agent
    rw [h]
  · unfold unregister_apply unregister_agent
    rw [h]

/-- C10 witness: unregistering `non-existent-agent` from the empty registry
(as in `test_unregister_agent_not_found`) fails with `AgentNotFoundError`
and the registry is unchanged. -/
theorem unregister_unknown_raises_not_found_witness :
    unregister_agent emptyRegistry "non-existent-agent" =
      .error (.agent_not_found ("Agent " ++ "non-existent-agent" ++ " not found")) ∧
    unregister_apply emptyRegistry "non-existent-agent" = emptyRegistry :=
  unregister_unknown_raises_not_found emptyRegistry "non-existent-agent" rfl

/-- C2 counterexample: after `demo-agent-001` registered with the shared
key, registering `demo-agent-002` with the same key fails with the generic
`AgentRegistrationError` carrying the message `Agent key is already in use
by agent: demo-agent-001` — the error taxonomy of `arcp.core.exceptions`
(as enumerated by `test_exceptions.py` and asserted by
`pytest.raises(AgentRegistrationError)` in `test_agent_key_uniqueness`)
contains no distinct `AgentKeyInUse` kind, so the claim's "distinct error
AgentKeyInUse (conflict kind, not a generic AgentRegistrationError)" fails
at this input. -/
theorem register_key_in_use_is_generic_error :
    register_agent 200 sDemo1 regB (some keyHashW) none =
      .error (.agent_registration_error
        "Agent key is already in use by agent: demo-agent-001") := by
  rfl

/-- C2 (amended): registration presenting key `k` can succeed iff no
binding exists for `k` or the binding maps `k` to the same `agent_id`;
otherwise it fails with `AgentRegistrationError` whose message names the
holding agent (`Agent key is already in use by agent: <holder>`), and the
registry state is unchanged by the failed call. -/
theorem register_agent_key_uniqueness (now : Nat) (s : RegistryState)
    (reg : AgentRegistration) (k : String) (emb : Option (List ℚ)) :
    ((∃ s2, register_agent now s reg (some k) emb = .ok s2) ↔
      (get_agent_by_key s k = none ∨ get_agent_by_key s k = some reg.agent_id)) ∧
    (∀ holder, get_agent_by_key s k = some holder → holder ≠ reg.agent_id →
      register_agent now s reg (some k) emb =
        .error (.agent_registration_error
          ("Agent key is already in use by agent: " ++ holder)) ∧
      register_apply now s reg (some k) emb = s) := by
  constructor
  · simp only [register_agent, get_agent_by_key]
    rcases hl : s.agent_keys.lookup k with _ | holder
    · simp [hl]
    · by_cases he : holder = reg.agent_id
      · subst he
        simp [hl]
      · simp only [hl, if_neg he]
        constructor
        · rintro ⟨s2, habs⟩
          exact absurd habs (by simp)
        · rintro (h | h)
          · exact absurd h (by simp)
          · rw [Option.some.injEq] at h
            exact absurd h he
  · intro holder hb hne
    have herr : register_agent now s reg (some k) emb =
        .error (.agent_registration_error
          ("Agent key is already in use by agent: " ++ holder)) := by
      simp only [register_agent, get_agent_by_key] at hb ⊢
      rw [hb]
      simp [if_neg hne]
    refine ⟨herr, ?_⟩
    unfold register_apply
    rw [herr]

/-- C2 witness: the amended statement instantiated on the
`test_agent_key_uniqueness` scenario: the second registration with the
shared key fails and leaves the registry unchanged. -/
theorem register_agent_key_uniqueness_witness :
    register_apply 200 sDemo1 regB (some keyHashW) none = sDemo1 := by
  have h := (register_agent_key_uniqueness 200 sDemo1 regB keyHashW none).2
    "demo-agent-001" (by decide) (by decide)
  exact h.2

/-- C1 counterexample: a registry with one alive filtered candidate (and a
stored embedding), queried with `min_similarity = 0`, while the embedding
provider is unavailable: `vector_search` returns the empty list, not a
lexically ranked non-empty result — the branch pinned by the repository's
unit test `test_vector_search_without_ai_client` (`results == []`). -/
theorem vector_search_unavailable_returns_empty_counterexample :
    candidate_filter 100 60 reqDemo sSearch ≠ [] ∧
    vector_search false [1] (fun _ _ => 1) 100 60 reqDemo sSearch = [] := by
  constructor
  · decide
  · rfl

/-- C1 (amended): when the embedding provider is unavailable,
`vector_search` returns the empty list (there is no registry-level lexical
fallback); on the embedding path every returned similarity is at least the
request's `min_similarity` and at most `top_k` results are returned. -/
theorem vector_search_fallback_invariants (av : Bool) (qe : List ℚ)
    (sim : List ℚ → List ℚ → ℚ) (now hb : Nat) (req : SearchRequest)
    (s : RegistryState) :
    vector_search false qe sim now hb req s = [] ∧
    (∀ r ∈ vector_search av qe sim now hb req s, req.min_similarity ≤ r.2) ∧
    (vector_search av qe sim now hb req s).length ≤ req.top_k := by
  refine ⟨rfl, ?_, ?_⟩
  · intro r hr
    cases av with
    | false => simp [vector_search] at hr
    | true =>
      unfold vector_search at hr
      simp only [Bool.true_eq_false, if_neg] at hr
      exact rank_results_min req _ r (by simpa using hr)
  · cases av with
    | false => simp [vector_search]
    | true =>
      unfold vector_search
      simp only [Bool.true_eq_false, if_neg]
      simpa using rank_results_length req _

/-- C1 witness: the amended statement instantiated on the concrete registry
of the counterexample: unavailable-provider search is empty, and the
available-provider search obeys the `min_similarity` bound at its concrete
result. -/
theorem vector_search_fallback_invariants_witness :
    vector_search false [1] (fun _ _ => 1) 100 60 reqDemo sSearch = [] ∧
    (vector_search true [1] (fun _ _ => 1) 100 60 reqDemo sSearch).length ≤ 5 := by
  have h := vector_search_fallback_invariants true [1] (fun _ _ => 1) 100 60 reqDemo sSearch
  exact ⟨(vector_search_fallback_invariants false [1] (fun _ _ => 1) 100 60 reqDemo
    sSearch).1, h.2.2⟩

/-- C6: search results over stored embeddings are sorted in non-increasing
similarity with ties broken by `agent_id` lexicographically ascending
(`result_le`), every returned similarity is at least `min_similarity`, and
at most `top_k` results are returned. -/
theorem vector_search_sorted_results (qe : List ℚ)
    (sim : List ℚ → List ℚ → ℚ) (now hb : Nat) (req : SearchRequest)
    (s : RegistryState) :
    List.Sorted result_le (vector_search true qe sim now hb req s) ∧
    (∀ r ∈ vector_search true qe sim now hb req s, req.min_similarity ≤ r.2) ∧
    (vector_search true qe sim now hb req s).length ≤ req.top_k := by
  refine ⟨?_, ?_, ?_⟩
  · unfold vector_search
    simp only [Bool.true_eq_false, if_neg]
    simpa using rank_results_sorted req _
  · intro r hr
    unfold vector_search at hr
    simp only [Bool.true_eq_false, if_neg] at hr
    exact rank_results_min req _ r (by simpa using hr)
  · unfold vector_search
    simp only [Bool.true_eq_false, if_neg]
    simpa using rank_results_length req _

/-- C6 witness: the sortedness statement instantiated on the concrete
one-agent registry, with the similarity bound discharged at its concrete
result. -/
theorem vector_search_sorted_results_witness :
    reqDemo.min_similarity ≤ (1 : ℚ) := by
  have h := (vector_search_sorted_results [1] (fun _ _ => 1) 100 60 reqDemo sSearch).2.1
  have hmem : ("demo-agent-001", (1 : ℚ)) ∈
      vector_search true [1] (fun _ _ => 1) 100 60 reqDemo sSearch := by decide
  simpa using h ("demo-agent-001", (1 : ℚ)) hmem

/-! ## Sanitizer lemmas -/

theorem matchesAt_append (pat : List Char) :
    ∀ a b : List Char, matchesAt pat a = true → matchesAt pat (a ++ b) = true := by
  induction pat with
  | nil => intro a b _; rfl
  | cons e es ih =>
    intro a b h
    cases a with
    | nil => exact absurd h (by simp [matchesAt])
    | cons c a2 =>
      rw [List.cons_append]
      simp only [matchesAt, Bool.and_eq_true] at h ⊢
      exact ⟨h.1, ih a2 b h.2⟩

theorem containsCI_skip_marker (p : Char) (ps : List Char) :
    ∀ (a z : List Char), (∀ x ∈ a, ciEq p x = false) →
      containsCI (p :: ps) (a ++ z) = containsCI (p :: ps) z := by
  intro a
  induction a with
  | nil => intro z _; rfl
  | cons x a2 ih =>
    intro z ha
    rw [List.cons_append]
    show (matchesAt (p :: ps) (x :: (a2 ++ z)) || containsCI (p :: ps) (a2 ++ z)) = _
    have hx : ciEq p x = false := ha x (List.mem_cons_self x a2)
    simp only [matchesAt, hx, Bool.false_and, Bool.false_or]
    exact ih z (fun y hy => ha y (List.mem_cons_of_mem x hy))

theorem matchesAt_scan_transfer :
    ∀ (fuel : Nat) (m : List Char), m.length ≤ fuel → ∀ pat : List Char,
      (∀ c ∈ pat, ciEq c '[' = false) →
      matchesAt pat (scanFilterGo fuel false m) = true → matchesAt pat m = true := by
  intro fuel
  induction fuel with
  | zero =>
    intro m hm pat _ h
    have : m = [] := List.length_eq_zero.mp (Nat.le_zero.mp hm)
    subst this
    exact h
  | succ fuel ih =>
    intro m hm pat hbr h
    cases m with
    | nil => exact h
    | cons c rest =>
      rcases hmt : matchLenAt (c :: rest) with _ | n
      · rw [scanFilterGo, hmt] at h
        cases pat with
        | nil => rfl
        | cons e es =>
          simp only [matchesAt, Bool.and_eq_true] at h ⊢
          refine ⟨h.1, ?_⟩
          exact ih rest (by simpa using hm) es
            (fun x hx => hbr x (List.mem_cons_of_mem e hx)) h.2
      · rw [scanFilterGo, hmt] at h
        cases pat with
        | nil => rfl
        | cons e es =>
          have he : ciEq e '[' = false := hbr e (List.mem_cons_self e es)
          have h2 : matchesAt (e :: es)
              ('[' :: ("FILTERED]".toList ++
                scanFilterGo fuel true (rest.drop (n - 1)))) = true := h
          simp only [matchesAt, he, Bool.false_and] at h2
          exact absurd h2 (by simp)

theorem scan_no_pattern_occurrence (p0 : Char) (ptl : List Char)
    (hpat : (p0 :: ptl) ∈ DANGEROUS_PATTERNS)
    (hbr : ∀ c ∈ p0 :: ptl, ciEq c '[' = false)
    (hfil : ∀ x ∈ FILTERED_MARK, ciEq p0 x = false) :
    ∀ (fuel : Nat) (l : List Char), l.length ≤ fuel → ∀ b,
      containsCI (p0 :: ptl) (scanFilterGo fuel b l) = false := by
  intro fuel
  induction fuel with
  | zero =>
    intro l hl b
    have : l = [] := List.length_eq_zero.mp (Nat.le_zero.mp hl)
    subst this
    rfl
  | succ fuel ih =>
    intro l hl b
    cases l with
    | nil => rfl
    | cons c rest =>
      have hrest : rest.length ≤ fuel := by simpa using hl
      rcases hmt : matchLenAt (c :: rest) with _ | n
      · rw [scanFilterGo, hmt]
        show (matchesAt (p0 :: ptl) (c :: scanFilterGo fuel false rest) ||
          containsCI (p0 :: ptl) (scanFilterGo fuel false rest)) = false
        rw [ih rest hrest false, Bool.or_false]
        cases hAt : matchesAt (p0 :: ptl) (c :: scanFilterGo fuel false rest) with
        | false => rfl
        | true =>
          exfalso
          simp only [matchesAt, Bool.and_eq_true] at hAt
          have h2 : matchesAt ptl rest = true :=
            matchesAt_scan_transfer fuel rest hrest ptl
              (fun x hx => hbr x (List.mem_cons_of_mem p0 hx)) hAt.2
          have hfull : matchesAt (p0 :: ptl) (c :: rest) = true := by
            simp only [matchesAt, Bool.and_eq_true]
            exact ⟨hAt.1, h2⟩
          rcases hf : DANGEROUS_PATTERNS.find? (fun p => matchesAt p (c :: rest)) with _ | q
          · exact absurd hfull (List.find?_eq_none.mp hf (p0 :: ptl) hpat)
          · rw [matchLenAt, hf] at hmt
            exact absurd hmt (by simp)
      · rw [scanFilterGo, hmt]
        have hdrop : (rest.drop (n - 1)).length ≤ fuel := by
          simp only [List.length_drop]
          omega
        cases b with
        | true =>
          simp only [if_pos, List.nil_append]
          exact ih _ hdrop true
        | false =>
          simp only [if_neg, Bool.false_eq_true, not_false_iff]
          rw [containsCI_skip_marker p0 ptl FILTERED_MARK _ hfil]
          exact ih _ hdrop true

theorem matchesAt_before_dots (pat : List Char) :
    ∀ a : List Char, (∀ c ∈ pat, ciEq c '.' = false) →
      matchesAt pat (a ++ "...".toList) = true → matchesAt pat a = true := by
  induction pat with
  | nil => intro a _ _; rfl
  | cons e es ih =>
    intro a hdot h
    cases a with
    | nil =>
      rw [List.nil_append] at h
      have he : ciEq e '.' = false := hdot e (List.mem_cons_self e es)
      rw [show "...".toList = '.' :: '.' :: '.' :: [] from rfl] at h
      simp only [matchesAt, he, Bool.false_and] at h
      exact absurd h (by simp)
    | cons c a2 =>
      rw [List.cons_append] at h
      simp only [matchesAt, Bool.and_eq_true] at h ⊢
      exact ⟨h.1, ih a2 (fun x hx => hdot x (List.mem_cons_of_mem e hx)) h.2⟩

theorem containsCI_before_dots (e : Char) (es : List Char)
    (hdot : ∀ c ∈ e :: es, ciEq c '.' = false) :
    ∀ a : List Char, containsCI (e :: es) (a ++ "...".toList) = true →
      containsCI (e :: es) a = true := by
  intro a
  induction a with
  | nil =>
    intro h
    exfalso
    have he : ciEq e '.' = false := hdot e (List.mem_cons_self e es)
    rw [show ([] : List Char) ++ "...".toList = '.' :: '.' :: '.' :: [] from rfl] at h
    simp [containsCI, matchesAt, he] at h
  | cons x a2 ih =>
    intro h
    rw [List.cons_append] at h
    rcases Bool.or_eq_true _ _ |>.mp h with h1 | h1
    · have := matchesAt_before_dots (e :: es) (x :: a2) hdot (by rwa [List.cons_append])
      show (matchesAt (e :: es) (x :: a2) || containsCI (e :: es) a2) = true
      rw [this]
      rfl
    · have := ih h1
      show (matchesAt (e :: es) (x :: a2) || containsCI (e :: es) a2) = true
      rw [this]
      simp

theorem containsCI_of_take (pat : List Char) :
    ∀ (l : List Char) (n : Nat), containsCI pat (l.take n) = true →
      containsCI pat l = true := by
  intro l
  induction l with
  | nil => intro n h; simpa using h
  | cons c r ih =>
    intro n h
    cases n with
    | zero =>
      rw [List.take_zero] at h
      have hm : matchesAt pat [] = true := h
      have := matchesAt_append pat [] (c :: r) hm
      rw [List.nil_append] at this
      show (matchesAt pat (c :: r) || containsCI pat r) = true
      rw [this]
      rfl
    | succ n =>
      rw [List.take_succ_cons] at h
      rcases Bool.or_eq_true _ _ |>.mp h with h1 | h1
      · have h2 := matchesAt_append pat (c :: r.take n) (r.drop n) h1
        rw [List.cons_append, List.take_append_drop] at h2
        show (matchesAt pat (c :: r) || containsCI pat r) = true
        rw [h2]
        rfl
      · have := ih n h1
        show (matchesAt pat (c :: r) || containsCI pat r) = true
        rw [this]
        simp

theorem matchesAt_pattern_front (ps qs : List Char) :
    ∀ l : List Char, matchesAt (ps ++ qs) l = true → matchesAt ps l = true := by
  induction ps with
  | nil => intro l _; rfl
  | cons e es ih =>
    intro l h
    cases l with
    | nil =>
      rw [List.cons_append] at h
      exact absurd h (by simp [matchesAt])
    | cons c cs =>
      rw [List.cons_append] at h
      simp only [matchesAt, Bool.and_eq_true] at h ⊢
      exact ⟨h.1, ih cs h.2⟩

theorem containsCI_pattern_front (ps qs : List Char) :
    ∀ l : List Char, containsCI (ps ++ qs) l = true → containsCI ps l = true := by
  intro l
  induction l with
  | nil =>
    intro h
    have hm : matchesAt (ps ++ qs) [] = true := h
    exact matchesAt_pattern_front ps qs [] hm
  | cons c r ih =>
    intro h
    rcases Bool.or_eq_true _ _ |>.mp h with h1 | h1
    · have := matchesAt_pattern_front ps qs (c :: r) h1
      show (matchesAt ps (c :: r) || containsCI ps r) = true
      rw [this]
      rfl
    · have := ih h1
      show (matchesAt ps (c :: r) || containsCI ps r) = true
      rw [this]
      simp

theorem containsCI_nil_pattern : ∀ l : List Char, containsCI [] l = true := by
  intro l
  cases l with
  | nil => rfl
  | cons c r => rfl

theorem containsCI_pattern_tail (p : Char) (ps : List Char) :
    ∀ l : List Char, containsCI (p :: ps) l = true → containsCI ps l = true := by
  intro l
  induction l with
  | nil =>
    intro h
    exact absurd h (by simp [containsCI, matchesAt])
  | cons c r ih =>
    intro h
    rcases Bool.or_eq_true _ _ |>.mp h with h1 | h1
    · simp only [matchesAt, Bool.and_eq_true] at h1
      show (matchesAt ps (c :: r) || containsCI ps r) = true
      have h2 : containsCI ps r = true := by
        cases ps with
        | nil => exact containsCI_nil_pattern r
        | cons e es =>
          cases r with
          | nil => exact absurd h1.2 (by simp [matchesAt])
          | cons c2 r2 =>
            show (matchesAt (e :: es) (c2 :: r2) || containsCI (e :: es) r2) = true
            rw [h1.2]
            rfl
      rw [h2]
      simp
    · have := ih h1
      show (matchesAt ps (c :: r) || containsCI ps r) = true
      rw [this]
      simp

theorem containsCI_truncate (e : Char) (es : List Char)
    (hdot : ∀ c ∈ e :: es, ciEq c '.' = false) (l : List Char) (maxLength : Nat)
    (h : containsCI (e :: es) l = false) :
    containsCI (e :: es) (truncateTo maxLength l) = false := by
  unfold truncateTo
  split
  · cases hc : containsCI (e :: es) (l.take maxLength ++ "...".toList) with
    | false => rfl
    | true =>
      exfalso
      have h1 := containsCI_before_dots e es hdot (l.take maxLength) hc
      have h2 := containsCI_of_take (e :: es) l maxLength h1
      rw [h] at h2
      exact absurd h2 (by simp)
  · exact h

/-! ## Sanitizer fixed-point lemmas -/

theorem patterns_nonempty : ∀ p ∈ DANGEROUS_PATTERNS, p ≠ [] := by decide

theorem patterns_no_lbracket :
    ∀ p ∈ DANGEROUS_PATTERNS, ∀ c ∈ p, ciEq c '[' = false := by decide

theorem patterns_no_rbracket :
    ∀ p ∈ DANGEROUS_PATTERNS, ∀ c ∈ p, ciEq c ']' = false := by decide

theorem patterns_lastNotDot :
    ∀ p ∈ DANGEROUS_PATTERNS, lastNotDot p = true := by decide

theorem matchLenAt_none_elim (c : Char) (rest : List Char)
    (h : matchLenAt (c :: rest) = none) :
    (∀ p ∈ DANGEROUS_PATTERNS, matchesAt p (c :: rest) = false) ∧
    eventHandlerLen (c :: rest) = none ∧ isCtrlChar c = false := by
  rcases hf : DANGEROUS_PATTERNS.find? (fun p => matchesAt p (c :: rest)) with _ | q
  · rcases he : eventHandlerLen (c :: rest) with _ | n
    · cases hctl : isCtrlChar c with
      | true =>
        exfalso
        have h2 : matchLenAt (c :: rest) = some 1 := by
          unfold matchLenAt
          rw [hf, he]
          simp [hctl]
        rw [h2] at h
        exact absurd h (by simp)
      | false =>
        refine ⟨?_, rfl, rfl⟩
        intro p hp
        exact Bool.eq_false_iff.mpr (List.find?_eq_none.mp hf p hp)
    · exfalso
      have h2 : matchLenAt (c :: rest) = some n := by
        unfold matchLenAt
        rw [hf, he]
      rw [h2] at h
      exact absurd h (by simp)
  · exfalso
    have h2 : matchLenAt (c :: rest) = some q.length := by
      unfold matchLenAt
      rw [hf]
    rw [h2] at h
    exact absurd h (by simp)

theorem matchLenAt_none_intro (c : Char) (rest : List Char)
    (h1 : ∀ p ∈ DANGEROUS_PATTERNS, matchesAt p (c :: rest) = false)
    (h2 : eventHandlerLen (c :: rest) = none)
    (h3 : isCtrlChar c = false) : matchLenAt (c :: rest) = none := by
  have hf : DANGEROUS_PATTERNS.find? (fun p => matchesAt p (c :: rest)) = none := by
    rw [List.find?_eq_none]
    intro p hp
    simp [h1 p hp]
  unfold matchLenAt
  rw [hf, h2]
  simp [h3]

theorem eventHandlerLen_not_o (a : Char) (l : List Char) (ha : ciEq a 'o' = false) :
    eventHandlerLen (a :: l) = none := by
  rcases l with _ | ⟨b, _ | ⟨c, r⟩⟩
  · rfl
  · rfl
  · simp [eventHandlerLen, ha]

theorem eventHandlerLen_not_n (a b : Char) (l : List Char) (hb : ciEq b 'n' = false) :
    eventHandlerLen (a :: b :: l) = none := by
  rcases l with _ | ⟨c, r⟩
  · rfl
  · simp [eventHandlerLen, hb]

theorem eventHandlerLen_not_word (a b c : Char) (l : List Char)
    (hc : isWordChar c = false) : eventHandlerLen (a :: b :: c :: l) = none := by
  simp [eventHandlerLen, hc]

theorem matchesAt_blocked (stop : Char) (p : List Char) :
    ∀ (a z : List Char), (∀ c ∈ p, ciEq c stop = false) →
      matchesAt p (a ++ stop :: z) = true → matchesAt p a = true := by
  induction p with
  | nil =>
    intro a z _ _
    rfl
  | cons e es ih =>
    intro a z hstop h
    cases a with
    | nil =>
      rw [List.nil_append] at h
      have he : ciEq e stop = false := hstop e (List.mem_cons_self e es)
      simp only [matchesAt, he, Bool.false_and] at h
      exact absurd h (by simp)
    | cons c a2 =>
      rw [List.cons_append] at h
      simp only [matchesAt, Bool.and_eq_true] at h ⊢
      exact ⟨h.1, ih a2 z (fun x hx => hstop x (List.mem_cons_of_mem e hx)) h.2⟩

theorem matchLenAt_none_marker_cons (c : Char) (inner : List Char) (z : List Char)
    (hco : ciEq c 'o' = false) (hctl : isCtrlChar c = false)
    (hB : ∀ p ∈ DANGEROUS_PATTERNS, matchesAt p (c :: inner) = false) :
    matchLenAt ((c :: inner) ++ ']' :: z) = none := by
  apply matchLenAt_none_intro
  · intro p hp
    cases hm : matchesAt p (c :: (inner ++ ']' :: z)) with
    | false => rfl
    | true =>
      exfalso
      have hm2 : matchesAt p ((c :: inner) ++ ']' :: z) = true := hm
      have h1 := matchesAt_blocked ']' p (c :: inner) z
        (patterns_no_rbracket p hp) hm2
      rw [hB p hp] at h1
      exact absurd h1 (by simp)
  · exact eventHandlerLen_not_o c _ hco
  · exact hctl

theorem matchLenAt_none_rbracket (z : List Char) : matchLenAt (']' :: z) = none := by
  apply matchLenAt_none_intro
  · intro p hp
    cases hm : matchesAt p (']' :: z) with
    | false => rfl
    | true =>
      exfalso
      have h0 := matchesAt_blocked ']' p [] z (patterns_no_rbracket p hp) hm
      rcases List.exists_cons_of_ne_nil (patterns_nonempty p hp) with ⟨e, es, rfl⟩
      simp [matchesAt] at h0
  · exact eventHandlerLen_not_o ']' z (by decide)
  · decide

theorem matchFree_FIL_append (z : List Char) (hz : matchFree z) :
    matchFree (FILTERED_MARK ++ z) := by
  show matchFree ('[' :: 'F' :: 'I' :: 'L' :: 'T' :: 'E' :: 'R' :: 'E' :: 'D' :: ']' :: z)
  refine ⟨?_, ?_, ?_, ?_, ?_, ?_, ?_, ?_, ?_, ?_, hz⟩
  · exact matchLenAt_none_marker_cons '[' "FILTERED".toList z (by decide) (by decide)
      (by decide)
  · exact matchLenAt_none_marker_cons 'F' "ILTERED".toList z (by decide) (by decide)
      (by decide)
  · exact matchLenAt_none_marker_cons 'I' "LTERED".toList z (by decide) (by decide)
      (by decide)
  · exact matchLenAt_none_marker_cons 'L' "TERED".toList z (by decide) (by decide)
      (by decide)
  · exact matchLenAt_none_marker_cons 'T' "ERED".toList z (by decide) (by decide)
      (by decide)
  · exact matchLenAt_none_marker_cons 'E' "RED".toList z (by decide) (by decide)
      (by decide)
  · exact matchLenAt_none_marker_cons 'R' "ED".toList z (by decide) (by decide)
      (by decide)
  · exact matchLenAt_none_marker_cons 'E' "D".toList z (by decide) (by decide)
      (by decide)
  · exact matchLenAt_none_marker_cons 'D' "".toList z (by decide) (by decide)
      (by decide)
  · exact matchLenAt_none_rbracket z

theorem evtSpace_scan_transfer :
    ∀ (fuel : Nat) (r : List Char), r.length ≤ fuel → ∀ m,
      evtSpace (scanFilterGo fuel false r) = some m → evtSpace r = some m := by
  intro fuel
  induction fuel with
  | zero =>
    intro r hr m h
    have h0 : r = [] := List.length_eq_zero.mp (Nat.le_zero.mp hr)
    subst h0
    exact h
  | succ fuel ih =>
    intro r hr m h
    cases r with
    | nil => exact h
    | cons c r2 =>
      rcases hm : matchLenAt (c :: r2) with _ | n
      · have hS : scanFilterGo (fuel + 1) false (c :: r2) =
            c :: scanFilterGo fuel false r2 := by
          rw [scanFilterGo, hm]
        rw [hS] at h
        by_cases hsp : c = ' '
        · subst hsp
          simp only [evtSpace, if_pos rfl] at h ⊢
          rcases Option.map_eq_some'.mp h with ⟨m2, hm2, hmm⟩
          rw [ih r2 (by simpa using hr) m2 hm2]
          simp [hmm]
        · by_cases heq : c = '='
          · subst heq
            simp only [evtSpace, if_neg hsp, if_pos rfl] at h ⊢
            exact h
          · simp only [evtSpace, if_neg hsp, if_neg heq] at h
            exact absurd h (by simp)
      · have hS : scanFilterGo (fuel + 1) false (c :: r2) =
            FILTERED_MARK ++ scanFilterGo fuel true (r2.drop (n - 1)) := by
          rw [scanFilterGo, hm]
          rfl
        rw [hS] at h
        have h2 : evtSpace ('[' ::
            ("FILTERED]".toList ++ scanFilterGo fuel true (r2.drop (n - 1)))) =
            some m := h
        simp [evtSpace] at h2

theorem evtWord_scan_transfer :
    ∀ (fuel : Nat) (r : List Char), r.length ≤ fuel → ∀ m,
      evtWord (scanFilterGo fuel false r) = some m → evtWord r = some m := by
  intro fuel
  induction fuel with
  | zero =>
    intro r hr m h
    have h0 : r = [] := List.length_eq_zero.mp (Nat.le_zero.mp hr)
    subst h0
    exact h
  | succ fuel ih =>
    intro r hr m h
    cases r with
    | nil => exact h
    | cons c r2 =>
      rcases hm : matchLenAt (c :: r2) with _ | n
      · have hS : scanFilterGo (fuel + 1) false (c :: r2) =
            c :: scanFilterGo fuel false r2 := by
          rw [scanFilterGo, hm]
        rw [hS] at h
        by_cases hw : isWordChar c = true
        · simp only [evtWord, if_pos hw] at h ⊢
          rcases Option.map_eq_some'.mp h with ⟨m2, hm2, hmm⟩
          rw [ih r2 (by simpa using hr) m2 hm2]
          simp [hmm]
        · have hw2 : isWordChar c = false := Bool.eq_false_iff.mpr hw
          by_cases hsp : c = ' '
          · subst hsp
            simp only [evtWord, hw2, Bool.false_eq_true, if_false, if_pos rfl] at h ⊢
            rcases Option.map_eq_some'.mp h with ⟨m2, hm2, hmm⟩
            rw [evtSpace_scan_transfer fuel r2 (by simpa using hr) m2 hm2]
            simp [hmm]
          · by_cases heq : c = '='
            · subst heq
              simp only [evtWord, hw2, Bool.false_eq_true, if_false, if_neg hsp,
                if_pos rfl] at h ⊢
              exact h
            · simp only [evtWord, hw2, Bool.false_eq_true, if_false, if_neg hsp,
                if_neg heq] at h
              exact absurd h (by simp)
      · have hS : scanFilterGo (fuel + 1) false (c :: r2) =
            FILTERED_MARK ++ scanFilterGo fuel true (r2.drop (n - 1)) := by
          rw [scanFilterGo, hm]
          rfl
        rw [hS] at h
        have h2 : evtWord ('[' ::
            ("FILTERED]".toList ++ scanFilterGo fuel true (r2.drop (n - 1)))) =
            some m := h
        simp [evtWord, isWordChar] at h2

theorem scanFilterGo_nil (fuel : Nat) (b : Bool) : scanFilterGo fuel b [] = [] := by
  cases fuel <;> rfl

theorem eventHandlerLen_scan_boundary (c : Char) :
    ∀ (fuel : Nat) (rest : List Char), rest.length ≤ fuel →
      eventHandlerLen (c :: rest) = none →
      eventHandlerLen (c :: scanFilterGo fuel false rest) = none := by
  intro fuel rest hlen hin
  cases rest with
  | nil => rw [scanFilterGo_nil]; exact hin
  | cons c2 r2 =>
    cases fuel with
    | zero => exact absurd hlen (by simp)
    | succ f =>
      rcases hm2 : matchLenAt (c2 :: r2) with _ | n
      · have hS : scanFilterGo (f + 1) false (c2 :: r2) =
            c2 :: scanFilterGo f false r2 := by
          rw [scanFilterGo, hm2]
        rw [hS]
        cases r2 with
        | nil => rw [scanFilterGo_nil]; exact hin
        | cons c3 r3 =>
          cases f with
          | zero => exact absurd hlen (by simp)
          | succ f2 =>
            rcases hm3 : matchLenAt (c3 :: r3) with _ | n3
            · have hS2 : scanFilterGo (f2 + 1) false (c3 :: r3) =
                  c3 :: scanFilterGo f2 false r3 := by
                rw [scanFilterGo, hm3]
              rw [hS2]
              by_cases hcond : (ciEq c 'o' && ciEq c2 'n' && isWordChar c3) = true
              · cases hev : evtWord (scanFilterGo f2 false r3) with
                | none => simp [eventHandlerLen, hcond, hev]
                | some mm =>
                  exfalso
                  have hlen3 : r3.length ≤ f2 := by
                    simp only [List.length_cons] at hlen
                    omega
                  have h4 := evtWord_scan_transfer f2 r3 hlen3 mm hev
                  have h5 : eventHandlerLen (c :: c2 :: c3 :: r3) =
                      (evtWord r3).map (fun n => 3 + n) := by
                    simp [eventHandlerLen, hcond]
                  rw [h5, h4] at hin
                  simp at hin
              · simp [eventHandlerLen, hcond]
            · have hS2 : scanFilterGo (f2 + 1) false (c3 :: r3) =
                  FILTERED_MARK ++ scanFilterGo f2 true (r3.drop (n3 - 1)) := by
                rw [scanFilterGo, hm3]
                rfl
              rw [hS2]
              exact eventHandlerLen_not_word c c2 '[' _ (by decide)
      · have hS : scanFilterGo (f + 1) false (c2 :: r2) =
            FILTERED_MARK ++ scanFilterGo f true (r2.drop (n - 1)) := by
          rw [scanFilterGo, hm2]
          rfl
        rw [hS]
        exact eventHandlerLen_not_n c '[' _ (by decide)

theorem matchLenAt_scan_boundary (c : Char) (fuel : Nat) (rest : List Char)
    (hlen : rest.length ≤ fuel) (hin : matchLenAt (c :: rest) = none) :
    matchLenAt (c :: scanFilterGo fuel false rest) = none := by
  obtain ⟨hpat, hev, hctl⟩ := matchLenAt_none_elim c rest hin
  apply matchLenAt_none_intro
  · intro p hp
    cases hm : matchesAt p (c :: scanFilterGo fuel false rest) with
    | false => rfl
    | true =>
      exfalso
      rcases List.exists_cons_of_ne_nil (patterns_nonempty p hp) with ⟨e, es, rfl⟩
      simp only [matchesAt, Bool.and_eq_true] at hm
      have h2 := matchesAt_scan_transfer fuel rest hlen es
        (fun x hx => patterns_no_lbracket _ hp x (List.mem_cons_of_mem e hx)) hm.2
      have h3 : matchesAt (e :: es) (c :: rest) = true := by
        simp only [matchesAt, Bool.and_eq_true]
        exact ⟨hm.1, h2⟩
      rw [hpat _ hp] at h3
      exact absurd h3 (by simp)
  · exact eventHandlerLen_scan_boundary c fuel rest hlen hev
  · exact hctl

theorem scan_matchFree :
    ∀ (fuel : Nat) (l : List Char), l.length ≤ fuel → ∀ b,
      matchFree (scanFilterGo fuel b l) := by
  intro fuel
  induction fuel with
  | zero =>
    intro l hl b
    have h0 : l = [] := List.length_eq_zero.mp (Nat.le_zero.mp hl)
    subst h0
    exact trivial
  | succ fuel ih =>
    intro l hl b
    cases l with
    | nil => exact trivial
    | cons c rest =>
      have hrest : rest.length ≤ fuel := by simpa using hl
      rcases hm : matchLenAt (c :: rest) with _ | n
      · have hS : scanFilterGo (fuel + 1) b (c :: rest) =
            c :: scanFilterGo fuel false rest := by
          rw [scanFilterGo, hm]
        rw [hS]
        exact ⟨matchLenAt_scan_boundary c fuel rest hrest hm, ih rest hrest false⟩
      · have hdrop : (rest.drop (n - 1)).length ≤ fuel := by
          simp only [List.length_drop]
          omega
        cases b with
        | true =>
          have hS : scanFilterGo (fuel + 1) true (c :: rest) =
              scanFilterGo fuel true (rest.drop (n - 1)) := by
            rw [scanFilterGo, hm]
            rfl
          rw [hS]
          exact ih _ hdrop true
        | false =>
          have hS : scanFilterGo (fuel + 1) false (c :: rest) =
              FILTERED_MARK ++ scanFilterGo fuel true (rest.drop (n - 1)) := by
            rw [scanFilterGo, hm]
            rfl
          rw [hS]
          exact matchFree_FIL_append _ (ih _ hdrop true)

theorem scan_id_of_matchFree :
    ∀ (fuel : Nat) (l : List Char), l.length ≤ fuel → matchFree l → ∀ b,
      scanFilterGo fuel b l = l := by
  intro fuel
  induction fuel with
  | zero =>
    intro l hl _ b
    have h0 : l = [] := List.length_eq_zero.mp (Nat.le_zero.mp hl)
    subst h0
    rfl
  | succ fuel ih =>
    intro l hl hmf b
    cases l with
    | nil => rfl
    | cons c rest =>
      obtain ⟨h0, h1⟩ := hmf
      have hS : scanFilterGo (fuel + 1) b (c :: rest) =
          c :: scanFilterGo fuel false rest := by
        rw [scanFilterGo, h0]
      rw [hS, ih rest (by simpa using hl) h1 false]

theorem matchesAt_extend :
    ∀ (p a : List Char), matchesAt p a = true → ∀ z, matchesAt p (a ++ z) = true := by
  intro p
  induction p with
  | nil => intro a _ z; rfl
  | cons q ps ih =>
    intro a h z
    cases a with
    | nil => exact absurd h (by simp [matchesAt])
    | cons b a2 =>
      simp only [matchesAt, Bool.and_eq_true] at h
      simp only [List.cons_append, matchesAt, Bool.and_eq_true]
      exact ⟨h.1, ih a2 h.2 z⟩

theorem matchesAt_dots_false :
    ∀ (p : List Char), p ≠ [] → lastNotDot p = true →
      ∀ d : List Char, (∀ x ∈ d, x = '.') → matchesAt p d = false := by
  intro p
  induction p with
  | nil => intro h; exact absurd rfl h
  | cons q ps ih =>
    intro _ hlast d hd
    cases d with
    | nil => simp [matchesAt]
    | cons c r =>
      have hc : c = '.' := hd c (List.mem_cons_self c r)
      cases ps with
      | nil =>
        have hq : ciEq q '.' = false := by
          have h2 : lastNotDot [q] = !(ciEq q '.') := rfl
          rw [h2] at hlast
          simpa using hlast
        subst hc
        simp [matchesAt, hq]
      | cons q2 ps2 =>
        have hlast2 : lastNotDot (q2 :: ps2) = true := hlast
        have h2 := ih (by simp) hlast2 r (fun x hx => hd x (List.mem_cons_of_mem c hx))
        simp [matchesAt, h2]

theorem matchesAt_elim_dots :
    ∀ (p a d : List Char), lastNotDot p = true → (∀ x ∈ d, x = '.') →
      matchesAt p (a ++ d) = true → matchesAt p a = true := by
  intro p
  induction p with
  | nil => intro a d _ _ _; rfl
  | cons q ps ih =>
    intro a d hlast hd h
    cases a with
    | nil =>
      rw [List.nil_append] at h
      rw [matchesAt_dots_false (q :: ps) (by simp) hlast d hd] at h
      exact absurd h (by simp)
    | cons b a2 =>
      rw [List.cons_append] at h
      simp only [matchesAt, Bool.and_eq_true] at h
      cases ps with
      | nil => simp [matchesAt, h.1]
      | cons q2 ps2 =>
        have hlast2 : lastNotDot (q2 :: ps2) = true := hlast
        simp only [matchesAt, Bool.and_eq_true]
        exact ⟨h.1, ih a2 d hlast2 hd h.2⟩

theorem evtSpace_extend :
    ∀ (a : List Char) (n : Nat), evtSpace a = some n →
      ∀ z, evtSpace (a ++ z) = some n := by
  intro a
  induction a with
  | nil => intro n h; exact absurd h (by simp [evtSpace])
  | cons c r ih =>
    intro n h z
    by_cases hsp : c = ' '
    · subst hsp
      simp only [evtSpace, if_pos rfl] at h
      rcases Option.map_eq_some'.mp h with ⟨m2, hm2, hmm⟩
      rw [List.cons_append]
      simp only [evtSpace, if_pos rfl]
      rw [ih m2 hm2 z]
      simp [hmm]
    · by_cases heq : c = '='
      · subst heq
        simp only [evtSpace, if_neg hsp, if_pos rfl] at h ⊢
        exact h
      · simp only [evtSpace, if_neg hsp, if_neg heq] at h
        exact absurd h (by simp)

theorem evtWord_extend :
    ∀ (a : List Char) (n : Nat), evtWord a = some n →
      ∀ z, evtWord (a ++ z) = some n := by
  intro a
  induction a with
  | nil => intro n h; exact absurd h (by simp [evtWord])
  | cons c r ih =>
    intro n h z
    by_cases hw : isWordChar c = true
    · simp only [evtWord, if_pos hw] at h
      rcases Option.map_eq_some'.mp h with ⟨m2, hm2, hmm⟩
      rw [List.cons_append]
      simp only [evtWord, if_pos hw]
      rw [ih m2 hm2 z]
      simp [hmm]
    · have hw2 : isWordChar c = false := Bool.eq_false_iff.mpr hw
      by_cases hsp : c = ' '
      · subst hsp
        simp only [evtWord, hw2, Bool.false_eq_true, if_false, if_pos rfl] at h
        rcases Option.map_eq_some'.mp h with ⟨m2, hm2, hmm⟩
        rw [List.cons_append]
        simp only [evtWord, hw2, Bool.false_eq_true, if_false, if_pos rfl]
        rw [evtSpace_extend r m2 hm2 z]
        simp [hmm]
      · by_cases heq : c = '='
        · subst heq
          simp only [evtWord, hw2, Bool.false_eq_true, if_false, if_neg hsp,
            if_pos rfl] at h ⊢
          exact h
        · simp only [evtWord, hw2, Bool.false_eq_true, if_false, if_neg hsp,
            if_neg heq] at h
          exact absurd h (by simp)

theorem eventHandlerLen_extend (a : List Char) (n : Nat)
    (h : eventHandlerLen a = some n) :
    ∀ z, eventHandlerLen (a ++ z) = some n := by
  intro z
  match a with
  | [] => exact absurd h (by simp [eventHandlerLen])
  | [x] => exact absurd h (by simp [eventHandlerLen])
  | [x, y] => exact absurd h (by simp [eventHandlerLen])
  | x :: y :: w :: rest =>
    by_cases hcond : (ciEq x 'o' && ciEq y 'n' && isWordChar w) = true
    · simp only [eventHandlerLen, if_pos hcond] at h
      rcases Option.map_eq_some'.mp h with ⟨m2, hm2, hmm⟩
      show eventHandlerLen (x :: y :: w :: (rest ++ z)) = some n
      simp only [eventHandlerLen, if_pos hcond, evtWord_extend rest m2 hm2 z]
      simp [hmm]
    · simp only [eventHandlerLen, if_neg hcond] at h
      exact absurd h (by simp)

theorem evtSpace_dots_none (d : List Char) (hd : ∀ x ∈ d, x = '.') :
    evtSpace d = none := by
  cases d with
  | nil => rfl
  | cons c r =>
    have hc : c = '.' := hd c (List.mem_cons_self c r)
    subst hc
    simp [evtSpace]

theorem evtWord_dots_none (d : List Char) (hd : ∀ x ∈ d, x = '.') :
    evtWord d = none := by
  cases d with
  | nil => rfl
  | cons c r =>
    have hc : c = '.' := hd c (List.mem_cons_self c r)
    subst hc
    simp [evtWord, isWordChar]

theorem evtSpace_elim_dots :
    ∀ (a d : List Char), (∀ x ∈ d, x = '.') → ∀ n,
      evtSpace (a ++ d) = some n → evtSpace a = some n := by
  intro a
  induction a with
  | nil =>
    intro d hd n h
    rw [List.nil_append, evtSpace_dots_none d hd] at h
    exact absurd h (by simp)
  | cons c r ih =>
    intro d hd n h
    rw [List.cons_append] at h
    by_cases hsp : c = ' '
    · subst hsp
      simp only [evtSpace, if_pos rfl] at h ⊢
      rcases Option.map_eq_some'.mp h with ⟨m2, hm2, hmm⟩
      rw [ih d hd m2 hm2]
      simp [hmm]
    · by_cases heq : c = '='
      · subst heq
        simp only [evtSpace, if_neg hsp, if_pos rfl] at h ⊢
        exact h
      · simp only [evtSpace, if_neg hsp, if_neg heq] at h
        exact absurd h (by simp)

theorem evtWord_elim_dots :
    ∀ (a d : List Char), (∀ x ∈ d, x = '.') → ∀ n,
      evtWord (a ++ d) = some n → evtWord a = some n := by
  intro a
  induction a with
  | nil =>
    intro d hd n h
    rw [List.nil_append, evtWord_dots_none d hd] at h
    exact absurd h (by simp)
  | cons c r ih =>
    intro d hd n h
    rw [List.cons_append] at h
    by_cases hw : isWordChar c = true
    · simp only [evtWord, if_pos hw] at h ⊢
      rcases Option.map_eq_some'.mp h with ⟨m2, hm2, hmm⟩
      rw [ih d hd m2 hm2]
      simp [hmm]
    · have hw2 : isWordChar c = false := Bool.eq_false_iff.mpr hw
      by_cases hsp : c = ' '
      · subst hsp
        simp only [evtWord, hw2, Bool.false_eq_true, if_false, if_pos rfl] at h ⊢
        rcases Option.map_eq_some'.mp h with ⟨m2, hm2, hmm⟩
        rw [evtSpace_elim_dots r d hd m2 hm2]
        simp [hmm]
      · by_cases heq : c = '='
        · subst heq
          simp only [evtWord, hw2, Bool.false_eq_true, if_false, if_neg hsp,
            if_pos rfl] at h ⊢
          exact h
        · simp only [evtWord, hw2, Bool.false_eq_true, if_false, if_neg hsp,
            if_neg heq] at h
          exact absurd h (by simp)

theorem eventHandlerLen_dots_none (d : List Char) (hd : ∀ x ∈ d, x = '.') :
    eventHandlerLen d = none := by
  match d with
  | [] => rfl
  | [c] => rfl
  | [c, c2] => rfl
  | c :: c2 :: c3 :: r =>
    have hc3 : c3 = '.' := hd c3 (by simp)
    subst hc3
    simp [eventHandlerLen, isWordChar]

theorem eventHandlerLen_elim_dots (a d : List Char) (hd : ∀ x ∈ d, x = '.')
    (n : Nat) (h : eventHandlerLen (a ++ d) = some n) :
    eventHandlerLen a = some n := by
  match a with
  | [] =>
    rw [List.nil_append, eventHandlerLen_dots_none d hd] at h
    exact absurd h (by simp)
  | [x] =>
    exfalso
    match d with
    | [] => exact absurd h (by simp [eventHandlerLen])
    | [c] => exact absurd h (by simp [eventHandlerLen])
    | c :: c2 :: r =>
      have hc : c = '.' := hd c (by simp)
      subst hc
      have h2 : eventHandlerLen (x :: '.' :: c2 :: r) = some n := h
      rw [show eventHandlerLen (x :: '.' :: c2 :: r) = none by
        simp [eventHandlerLen, ciEq, lowerChar]] at h2
      exact absurd h2 (by simp)
  | [x, y] =>
    exfalso
    match d with
    | [] => exact absurd h (by simp [eventHandlerLen])
    | c :: r =>
      have hc : c = '.' := hd c (by simp)
      subst hc
      have h2 : eventHandlerLen (x :: y :: '.' :: r) = some n := h
      rw [show eventHandlerLen (x :: y :: '.' :: r) = none by
        simp [eventHandlerLen, isWordChar]] at h2
      exact absurd h2 (by simp)
  | x :: y :: w :: rest =>
    have h2 : eventHandlerLen (x :: y :: w :: (rest ++ d)) = some n := h
    by_cases hcond : (ciEq x 'o' && ciEq y 'n' && isWordChar w) = true
    · simp only [eventHandlerLen, if_pos hcond] at h2 ⊢
      rcases Option.map_eq_some'.mp h2 with ⟨m2, hm2, hmm⟩
      rw [evtWord_elim_dots rest d hd m2 hm2]
      simp [hmm]
    · simp only [eventHandlerLen, if_neg hcond] at h2
      exact absurd h2 (by simp)

theorem matchLenAt_nil : matchLenAt [] = none := by decide

theorem matchFree_iff_drop :
    ∀ l : List Char, matchFree l ↔ ∀ i, matchLenAt (l.drop i) = none := by
  intro l
  induction l with
  | nil =>
    constructor
    · intro _ i
      rw [List.drop_nil]
      exact matchLenAt_nil
    · intro _
      exact trivial
  | cons c rest ih =>
    constructor
    · rintro ⟨h0, h1⟩ i
      cases i with
      | zero => exact h0
      | succ j =>
        rw [List.drop_succ_cons]
        exact ih.mp h1 j
    · intro h
      refine ⟨h 0, ih.mpr (fun j => ?_)⟩
      have h2 := h (j + 1)
      rw [List.drop_succ_cons] at h2
      exact h2

theorem matchFree_dots : matchFree ("...".toList) := by
  show matchFree ['.', '.', '.']
  refine ⟨by decide, by decide, by decide, trivial⟩

theorem dots_all_dot : ∀ x ∈ ("...".toList : List Char), x = '.' := by decide

theorem matchLenAt_dots_of_none (a t : List Char)
    (h : matchLenAt (a ++ t) = none) :
    matchLenAt (a ++ "...".toList) = none := by
  cases a with
  | nil =>
    rw [List.nil_append]
    decide
  | cons c a2 =>
    have h2 : matchLenAt (c :: (a2 ++ t)) = none := h
    obtain ⟨hpat, hev, hctl⟩ := matchLenAt_none_elim c (a2 ++ t) h2
    show matchLenAt (c :: (a2 ++ "...".toList)) = none
    apply matchLenAt_none_intro
    · intro p hp
      cases hm : matchesAt p (c :: (a2 ++ "...".toList)) with
      | false => rfl
      | true =>
        exfalso
        have hm2 : matchesAt p ((c :: a2) ++ "...".toList) = true := hm
        have h3 := matchesAt_elim_dots p (c :: a2) _
          (patterns_lastNotDot p hp) dots_all_dot hm2
        have h4 := matchesAt_extend p (c :: a2) h3 t
        have h5 : matchesAt p (c :: (a2 ++ t)) = true := h4
        rw [hpat p hp] at h5
        exact absurd h5 (by simp)
    · cases he : eventHandlerLen (c :: (a2 ++ "...".toList)) with
      | none => rfl
      | some n =>
        exfalso
        have he2 : eventHandlerLen ((c :: a2) ++ "...".toList) = some n := he
        have h3 := eventHandlerLen_elim_dots (c :: a2) _ dots_all_dot n he2
        have h4 := eventHandlerLen_extend (c :: a2) n h3 t
        have h5 : eventHandlerLen (c :: (a2 ++ t)) = some n := h4
        rw [hev] at h5
        exact absurd h5 (by simp)
    · exact hctl

theorem drop_append_left :
    ∀ (a z : List Char) (i : Nat), i ≤ a.length →
      (a ++ z).drop i = a.drop i ++ z := by
  intro a
  induction a with
  | nil =>
    intro z i h
    have h0 : i = 0 := Nat.le_zero.mp (by simpa using h)
    subst h0
    rfl
  | cons c a2 ih =>
    intro z i h
    cases i with
    | zero => rfl
    | succ j =>
      simp only [List.cons_append, List.drop_succ_cons]
      exact ih z j (by simpa using h)

theorem drop_append_right :
    ∀ (a z : List Char) (j : Nat), (a ++ z).drop (a.length + j) = z.drop j := by
  intro a
  induction a with
  | nil => intro z j; simp
  | cons c a2 ih =>
    intro z j
    have e : (c :: a2).length + j = (a2.length + j) + 1 := by
      simp only [List.length_cons]
      omega
    rw [e, List.cons_append, List.drop_succ_cons]
    exact ih z j

theorem matchFree_truncateTo (m : Nat) (l : List Char) (hl : matchFree l) :
    matchFree (truncateTo m l) := by
  by_cases h : m < l.length
  · have e : truncateTo m l = l.take m ++ "...".toList := by
      simp [truncateTo, h]
    rw [e, matchFree_iff_drop]
    intro i
    by_cases hi : i < (l.take m).length
    · rw [drop_append_left _ _ i (Nat.le_of_lt hi)]
      have e2 : (l.take m).drop i ++ l.drop m = l.drop i := by
        rw [← drop_append_left (l.take m) (l.drop m) i (Nat.le_of_lt hi),
          List.take_append_drop]
      have hnone : matchLenAt ((l.take m).drop i ++ l.drop m) = none := by
        rw [e2]
        exact (matchFree_iff_drop l).mp hl i
      exact matchLenAt_dots_of_none _ _ hnone
    · push_neg at hi
      obtain ⟨j, hj⟩ : ∃ j, i = (l.take m).length + j :=
        ⟨i - (l.take m).length, by omega⟩
      rw [hj, drop_append_right]
      exact (matchFree_iff_drop ("...".toList)).mp matchFree_dots j
  · have e : truncateTo m l = l := by simp [truncateTo, h]
    rw [e]
    exact hl

theorem truncateTo_idem (m : Nat) (l : List Char) :
    truncateTo m (truncateTo m l) = truncateTo m l := by
  by_cases h : m < l.length
  · have e : truncateTo m l = l.take m ++ "...".toList := by
      simp [truncateTo, h]
    rw [e]
    have hlen : (l.take m).length = m := by
      rw [List.length_take]
      omega
    have hlt : m < (l.take m ++ "...".toList).length := by
      rw [List.length_append, hlen]
      simp
    simp only [truncateTo, if_pos hlt]
    congr 1
    rw [List.take_append_of_le_length (by rw [hlen]), List.take_take]
    simp
  · have e : truncateTo m l = l := by simp [truncateTo, h]
    rw [e, e]

theorem htmlEscapeChar_no_esc (d : Char) :
    ∀ c ∈ htmlEscapeChar d, isEscChar c = false := by
  intro c hc
  by_cases h1 : d = '<'
  · subst h1
    have hall : ∀ x ∈ ("&lt;".toList : List Char), isEscChar x = false := by decide
    exact hall c (by simpa [htmlEscapeChar] using hc)
  · by_cases h2 : d = '>'
    · subst h2
      have hall : ∀ x ∈ ("&gt;".toList : List Char), isEscChar x = false := by
        decide
      exact hall c (by simpa [htmlEscapeChar] using hc)
    · by_cases h3 : d = '"'
      · subst h3
        have hall : ∀ x ∈ ("&quot;".toList : List Char), isEscChar x = false := by
          decide
        exact hall c (by simpa [htmlEscapeChar] using hc)
      · by_cases h4 : d = '\''
        · subst h4
          have hall : ∀ x ∈ ("&#x27;".toList : List Char), isEscChar x = false := by
            decide
          exact hall c (by simpa [htmlEscapeChar] using hc)
        · have he : htmlEscapeChar d = [d] := by
            simp [htmlEscapeChar, h1, h2, h3, h4]
          rw [he] at hc
          have hcd : c = d := by simpa using hc
          subst hcd
          simp [isEscChar, h1, h2, h3, h4]

theorem htmlEscape_no_esc :
    ∀ l : List Char, ∀ c ∈ htmlEscape l, isEscChar c = false := by
  intro l
  induction l with
  | nil => intro c hc; exact absurd hc (by simp [htmlEscape])
  | cons d r ih =>
    intro c hc
    have hc2 : c ∈ htmlEscapeChar d ++ htmlEscape r := hc
    rcases List.mem_append.mp hc2 with h | h
    · exact htmlEscapeChar_no_esc d c h
    · exact ih c h

theorem htmlEscape_id :
    ∀ l : List Char, (∀ c ∈ l, isEscChar c = false) → htmlEscape l = l := by
  intro l
  induction l with
  | nil => intro _; rfl
  | cons c r ih =>
    intro h
    have hc := h c (List.mem_cons_self c r)
    simp only [isEscChar, Bool.or_eq_false_iff, decide_eq_false_iff_not] at hc
    have he : htmlEscapeChar c = [c] := by
      simp [htmlEscapeChar, hc.1.1.1, hc.1.1.2, hc.1.2, hc.2]
    show htmlEscapeChar c ++ htmlEscape r = c :: r
    rw [he, ih (fun x hx => h x (List.mem_cons_of_mem c hx))]
    rfl

theorem filtered_no_esc : ∀ x ∈ FILTERED_MARK, isEscChar x = false := by decide

theorem scanFilterGo_chars :
    ∀ (fuel : Nat) (b : Bool) (l : List Char),
      (∀ c ∈ l, isEscChar c = false) →
      ∀ c ∈ scanFilterGo fuel b l, isEscChar c = false := by
  intro fuel
  induction fuel with
  | zero =>
    intro b l _ c hc
    cases l with
    | nil => exact absurd hc (by simp [scanFilterGo])
    | cons x r => exact absurd hc (by simp [scanFilterGo])
  | succ fuel ih =>
    intro b l h c hc
    cases l with
    | nil => exact absurd hc (by simp [scanFilterGo])
    | cons x rest =>
      rcases hm : matchLenAt (x :: rest) with _ | n
      · have hS : scanFilterGo (fuel + 1) b (x :: rest) =
            x :: scanFilterGo fuel false rest := by
          rw [scanFilterGo, hm]
        rw [hS] at hc
        rcases List.mem_cons.mp hc with h1 | h1
        · subst h1
          exact h c (List.mem_cons_self c rest)
        · exact ih false rest (fun y hy => h y (List.mem_cons_of_mem x hy)) c h1
      · have hS : scanFilterGo (fuel + 1) b (x :: rest) =
            (if b then [] else FILTERED_MARK) ++
              scanFilterGo fuel true (rest.drop (n - 1)) := by
          rw [scanFilterGo, hm]
        rw [hS] at hc
        rcases List.mem_append.mp hc with h1 | h1
        · cases b with
          | true => exact absurd h1 (by simp)
          | false => exact filtered_no_esc c (by simpa using h1)
        · refine ih true (rest.drop (n - 1)) (fun y hy => ?_) c h1
          exact h y (List.mem_cons_of_mem x (List.mem_of_mem_drop hy))

theorem scanFilter_chars (l : List Char) (h : ∀ c ∈ l, isEscChar c = false) :
    ∀ c ∈ scanFilter l, isEscChar c = false :=
  fun c hc => scanFilterGo_chars l.length false l h c hc

theorem truncateTo_chars (m : Nat) (l : List Char)
    (h : ∀ c ∈ l, isEscChar c = false) :
    ∀ c ∈ truncateTo m l, isEscChar c = false := by
  intro c hc
  by_cases hlt : m < l.length
  · rw [show truncateTo m l = l.take m ++ "...".toList by simp [truncateTo, hlt]]
      at hc
    rcases List.mem_append.mp hc with h1 | h1
    · exact h c (List.take_subset m l h1)
    · have hd : c = '.' := dots_all_dot c h1
      subst hd
      decide
  · rw [show truncateTo m l = l by simp [truncateTo, hlt]] at hc
    exact h c hc

theorem scanFilter_matchFree (l : List Char) : matchFree (scanFilter l) :=
  scan_matchFree l.length l (Nat.le_refl _) false

theorem scanFilter_id (l : List Char) (h : matchFree l) : scanFilter l = l :=
  scan_id_of_matchFree l.length l (Nat.le_refl _) h false

theorem containsCI_eq_false_of_matchFree :
    ∀ l : List Char, matchFree l →
      ∀ p ∈ DANGEROUS_PATTERNS, containsCI p l = false := by
  intro l
  induction l with
  | nil =>
    intro _ p hp
    obtain ⟨e, es, rfl⟩ := List.exists_cons_of_ne_nil (patterns_nonempty p hp)
    rfl
  | cons c r ih =>
    rintro ⟨h0, h1⟩ p hp
    obtain ⟨hpat, _, _⟩ := matchLenAt_none_elim c r h0
    show (matchesAt p (c :: r) || containsCI p r) = false
    rw [hpat p hp, ih h1 p hp]
    rfl

theorem event_none_of_matchFree (l : List Char) (h : matchFree l) :
    ∀ i, eventHandlerLen (l.drop i) = none := by
  intro i
  have h2 := (matchFree_iff_drop l).mp h i
  cases hd : l.drop i with
  | nil => rfl
  | cons c rest =>
    rw [hd] at h2
    exact (matchLenAt_none_elim c rest h2).2.1

/-- **C3.** The sanitizer is idempotent — `sanitize(sanitize(x)) =
sanitize(x)` for every input string and length cap — and its output never
matches the dangerous patterns: no case-insensitive occurrence of any
entry of `DANGEROUS_PATTERNS` (`javascript:` scheme, the `script` denylist
word, etc.), no occurrence of `<script>`, and no event-handler pattern
`on\w+\s*=` starting at any position of the output. -/
theorem sanitize_idempotent_and_never_dangerous (value : String) (maxLength : Nat) :
    sanitize_string (sanitize_string value maxLength) maxLength
        = sanitize_string value maxLength ∧
    (∀ p ∈ DANGEROUS_PATTERNS,
        containsCI p (sanitize_string value maxLength).data = false) ∧
    containsCI "<script>".toList (sanitize_string value maxLength).data = false ∧
    (∀ i, eventHandlerLen ((sanitize_string value maxLength).data.drop i) = none) := by
  have hxfree : matchFree (scanFilter (htmlEscape value.toList)) :=
    scanFilter_matchFree _
  have hyfree :
      matchFree (truncateTo maxLength (scanFilter (htmlEscape value.toList))) :=
    matchFree_truncateTo _ _ hxfree
  have hychars :
      ∀ c ∈ truncateTo maxLength (scanFilter (htmlEscape value.toList)),
        isEscChar c = false :=
    truncateTo_chars _ _ (scanFilter_chars _ (htmlEscape_no_esc _))
  refine ⟨?_, ?_, ?_, ?_⟩
  · have hdata :
        truncateTo maxLength (scanFilter (htmlEscape
            (truncateTo maxLength (scanFilter (htmlEscape value.toList))))) =
          truncateTo maxLength (scanFilter (htmlEscape value.toList)) := by
      rw [htmlEscape_id _ hychars, scanFilter_id _ hyfree, truncateTo_idem]
    exact congrArg String.mk hdata
  · intro p hp
    exact containsCI_eq_false_of_matchFree _ hyfree p hp
  · cases hsc : containsCI "<script>".toList
        (sanitize_string value maxLength).data with
    | false => rfl
    | true =>
      exfalso
      have h1 : containsCI ("script>".toList)
          (sanitize_string value maxLength).data = true :=
        containsCI_pattern_tail '<' _ _ hsc
      have e : ("script>".toList : List Char) = "script".toList ++ ['>'] := rfl
      rw [e] at h1
      have h3 := containsCI_pattern_front "script".toList ['>'] _ h1
      have h4 := containsCI_eq_false_of_matchFree _ hyfree "script".toList
        (by decide)
      have h5 : containsCI "script".toList
          (sanitize_string value maxLength).data = false := h4
      rw [h5] at h3
      exact absurd h3 (by simp)
  · intro i
    exact event_none_of_matchFree _ hyfree i

/-- Closed witness for C3: the theorem applied to a concrete hostile input;
the dangerous-pattern clause is instantiated at the `javascript:` pattern
with its membership in `DANGEROUS_PATTERNS` discharged by evaluation. -/
theorem sanitize_idempotent_and_never_dangerous_witness :
    sanitize_string (sanitize_string "<script>javascript:alert(1)" 200) 200
        = sanitize_string "<script>javascript:alert(1)" 200 ∧
    containsCI "javascript:".toList
        (sanitize_string "<script>javascript:alert(1)" 200).data = false :=
  ⟨(sanitize_idempotent_and_never_dangerous "<script>javascript:alert(1)" 200).1,
   (sanitize_idempotent_and_never_dangerous "<script>javascript:alert(1)" 200).2.1
     "javascript:".toList (by decide)⟩

end ARCP
